import Mathlib

/-!
# Phantom keyboard firmware: scan loop, debounce timer and report queue

A shallow embedding of `src/phantom.c` and of the tables of `src/phantom.h`.

* The arrays `pressed`, `release`, `queue`, `previous`, `keyboard_keys` are
  functions from an index to the stored value, written with `upd`.
* Bytes (`uint8_t`) are natural numbers; arithmetic that can leave the byte
  range is reduced modulo 256.
* The key codes `KEY_*` come from `usb_keyboard.h`, which is not part of the
  sources at hand; they are the fields of the parameter `KeyCodes`.
* `usb_keyboard_send()` is an external call: the state carries a chronological
  record `log` of the calls of `key_press`, `key_release` and
  `usb_keyboard_send`, the latter with the six key slots and the modifier byte
  that were handed over.
* The timer interrupt and the body of the column loop of `main` are atomic
  steps of a transition system (`step`); an interrupt in the middle of a column
  is outside the model.
-/

namespace Phantom

/-! ## Constants of `phantom.h` -/

/-- The placeholder `NA` of `phantom.h`. -/
def NA : Nat := 0
/-- Number of rows. -/
def NROW : Nat := 6
/-- Number of columns. -/
def NCOL : Nat := 17
/-- Number of keys. -/
def NKEY : Nat := 102

/-- The key codes of `usb_keyboard.h` that `layout` mentions. The header is
not among the sources, so the codes are parameters of the development. -/
structure KeyCodes where
  KEY_LEFT_CTRL : Nat
  KEY_LEFT_SHIFT : Nat
  KEY_LEFT_ALT : Nat
  KEY_LEFT_GUI : Nat
  KEY_RIGHT_CTRL : Nat
  KEY_RIGHT_SHIFT : Nat
  KEY_RIGHT_ALT : Nat
  KEY_RIGHT_GUI : Nat
  KEY_A : Nat
  KEY_B : Nat
  KEY_C : Nat
  KEY_D : Nat
  KEY_E : Nat
  KEY_F : Nat
  KEY_G : Nat
  KEY_H : Nat
  KEY_I : Nat
  KEY_J : Nat
  KEY_K : Nat
  KEY_L : Nat
  KEY_M : Nat
  KEY_N : Nat
  KEY_O : Nat
  KEY_P : Nat
  KEY_Q : Nat
  KEY_R : Nat
  KEY_S : Nat
  KEY_T : Nat
  KEY_U : Nat
  KEY_V : Nat
  KEY_W : Nat
  KEY_X : Nat
  KEY_Y : Nat
  KEY_Z : Nat
  KEY_1 : Nat
  KEY_2 : Nat
  KEY_3 : Nat
  KEY_4 : Nat
  KEY_5 : Nat
  KEY_6 : Nat
  KEY_7 : Nat
  KEY_8 : Nat
  KEY_9 : Nat
  KEY_0 : Nat
  KEY_ENTER : Nat
  KEY_ESC : Nat
  KEY_BACKSPACE : Nat
  KEY_TAB : Nat
  KEY_SPACE : Nat
  KEY_MINUS : Nat
  KEY_EQUAL : Nat
  KEY_LEFT_BRACE : Nat
  KEY_RIGHT_BRACE : Nat
  KEY_BACKSLASH : Nat
  KEY_SEMICOLON : Nat
  KEY_QUOTE : Nat
  KEY_TILDE : Nat
  KEY_COMMA : Nat
  KEY_PERIOD : Nat
  KEY_SLASH : Nat
  KEY_CAPS_LOCK : Nat
  KEY_F1 : Nat
  KEY_F2 : Nat
  KEY_F3 : Nat
  KEY_F4 : Nat
  KEY_F5 : Nat
  KEY_F6 : Nat
  KEY_F7 : Nat
  KEY_F8 : Nat
  KEY_F9 : Nat
  KEY_F10 : Nat
  KEY_F11 : Nat
  KEY_F12 : Nat
  KEY_PRINTSCREEN : Nat
  KEY_SCROLL_LOCK : Nat
  KEY_PAUSE : Nat
  KEY_INSERT : Nat
  KEY_HOME : Nat
  KEY_PAGE_UP : Nat
  KEY_DELETE : Nat
  KEY_END : Nat
  KEY_PAGE_DOWN : Nat
  KEY_RIGHT : Nat
  KEY_LEFT : Nat
  KEY_DOWN : Nat
  KEY_UP : Nat
  KEY_PIPE : Nat
  KEY_APPLICATION : Nat

/-- The table `is_modifier` of `phantom.h`, one line per column; `NA` is `0`,
that is `false`. -/
def is_modifier_table : List Bool := [
  true,  true,  false, false, false, false,  -- COL  0
  true,  false, false, false, false, false,  -- COL  1
  true,  false, false, false, false, false,  -- COL  2
  false, false, false, false, false, false,  -- COL  3
  false, false, false, false, false, false,  -- COL  4
  false, false, false, false, false, false,  -- COL  5
  false, false, false, false, false, false,  -- COL  6
  false, false, false, false, false, false,  -- COL  7
  false, false, false, false, false, false,  -- COL  8
  false, false, false, false, false, false,  -- COL  9
  true,  false, false, false, false, false,  -- COL 10
  true,  false, false, false, false, false,  -- COL 11
  false, false, false, false, false, false,  -- COL 12
  true,  true,  false, false, false, false,  -- COL 13
  false, false, false, false, false, false,  -- COL 14
  false, false, false, false, false, false,  -- COL 15
  false, false, false, false, false, false]  -- COL 16

/-- The entry `is_modifier[key]`. -/
def is_modifier (key : Nat) : Bool := is_modifier_table.getD key false

/-- The table `layout` of `phantom.h`, one line per column. -/
def layout_table (K : KeyCodes) : List Nat := [
  K.KEY_LEFT_CTRL, K.KEY_LEFT_SHIFT, K.KEY_CAPS_LOCK, K.KEY_TAB, K.KEY_1, K.KEY_ESC,
  K.KEY_LEFT_GUI, K.KEY_PIPE, K.KEY_A, K.KEY_Q, K.KEY_2, K.KEY_TILDE,
  K.KEY_LEFT_ALT, K.KEY_Z, K.KEY_S, K.KEY_W, K.KEY_3, K.KEY_F1,
  NA, K.KEY_X, K.KEY_D, K.KEY_E, K.KEY_4, K.KEY_F2,
  NA, K.KEY_C, K.KEY_F, K.KEY_R, K.KEY_5, K.KEY_F3,
  NA, K.KEY_V, K.KEY_G, K.KEY_T, K.KEY_6, K.KEY_F4,
  NA, K.KEY_B, K.KEY_H, K.KEY_Y, K.KEY_7, K.KEY_F5,
  K.KEY_SPACE, K.KEY_N, K.KEY_J, K.KEY_U, K.KEY_8, K.KEY_F6,
  NA, K.KEY_M, K.KEY_K, K.KEY_I, K.KEY_9, K.KEY_F7,
  NA, K.KEY_COMMA, K.KEY_L, K.KEY_O, K.KEY_0, K.KEY_F8,
  K.KEY_RIGHT_ALT, K.KEY_PERIOD, K.KEY_SEMICOLON, K.KEY_P, K.KEY_MINUS, K.KEY_F9,
  K.KEY_RIGHT_GUI, K.KEY_SLASH, K.KEY_QUOTE, K.KEY_LEFT_BRACE, K.KEY_EQUAL, K.KEY_F10,
  K.KEY_APPLICATION, NA, K.KEY_BACKSLASH, K.KEY_RIGHT_BRACE, NA, K.KEY_F11,
  K.KEY_RIGHT_CTRL, K.KEY_RIGHT_SHIFT, K.KEY_ENTER, K.KEY_BACKSLASH, K.KEY_BACKSPACE, K.KEY_F12,
  K.KEY_LEFT, NA, NA, K.KEY_DELETE, K.KEY_INSERT, K.KEY_PRINTSCREEN,
  K.KEY_DOWN, K.KEY_UP, NA, K.KEY_END, K.KEY_HOME, K.KEY_SCROLL_LOCK,
  K.KEY_RIGHT, NA, NA, K.KEY_PAGE_DOWN, K.KEY_PAGE_UP, K.KEY_PAUSE]

/-- The entry `layout[key]`. -/
def layout (K : KeyCodes) (key : Nat) : Nat := (layout_table K).getD key 0

/-! ## State -/

/-- A call recorded in the log. -/
inductive Call where
  | key_press (key : Nat)
  | key_release (key : Nat)
  | usb_keyboard_send (keys : List Nat) (modifier : Nat)
  deriving DecidableEq, Repr

/-- The globals of `phantom.c`, the two report globals of `usb_keyboard.h`
that `send` writes, the locals `previous`, `col`, `key` of `main`, and the
record of calls. -/
structure State where
  pressed : Nat → Bool
  release : Nat → Nat
  queue : Nat → Nat
  mod_keys : Nat
  keyboard_keys : Nat → Nat
  keyboard_modifier_keys : Nat
  previous : Nat → Nat
  col : Nat
  key : Nat
  log : List Call

/-- Array store `a[i] = v`. -/
def upd {α : Type} (a : Nat → α) (i : Nat) (v : α) : Nat → α :=
  fun j => if j = i then v else a j

/-! ## `send`, `key_press`, `key_release` -/

/-- The body of the loop of `send`:
`keyboard_keys[i] = queue[i]<255? layout[queue[i]]: 0`. -/
def send_slot (K : KeyCodes) (s : State) (i : Nat) : State :=
  let v := if s.queue i < 255 then layout K (s.queue i) else 0
  { s with keyboard_keys := upd s.keyboard_keys i v }

/-- The function `send`: fill the six slots, copy `mod_keys`, call
`usb_keyboard_send`. -/
def send (K : KeyCodes) (s : State) : State :=
  let s1 := (List.range 6).foldl (send_slot K) s
  let s2 := { s1 with keyboard_modifier_keys := s1.mod_keys }
  let c := Call.usb_keyboard_send ((List.range 6).map s2.keyboard_keys) s2.keyboard_modifier_keys
  { s2 with log := s2.log ++ [c] }

/-- The loop `for(i = 5; i > 0; i--) queue[i] = queue[i-1]`. -/
def shift_down (q : Nat → Nat) : Nat → Nat :=
  [5, 4, 3, 2, 1].foldl (fun q i => upd q i (q (i - 1))) q

/-- The function `key_press`. -/
def key_press (K : KeyCodes) (key : Nat) (s : State) : State :=
  let s0 := { s with log := s.log ++ [Call.key_press key] }
  let s1 := { s0 with pressed := upd s0.pressed key true }
  let s2 := { s1 with release := upd s1.release key 0x00 }
  let s3 :=
    if is_modifier key then
      { s2 with mod_keys := (s2.mod_keys ||| layout K key) % 256 }
    else
      { s2 with queue := upd (shift_down s2.queue) 0 key }
  send K s3

/-- The search loop `for(i = 0; i < 6; i++) if(queue[i]==key) break;` started
with `n` iterations left at index `i`; the result is the final value of `i`. -/
def find_loop (q : Nat → Nat) (key : Nat) : Nat → Nat → Nat
  | 0, i => i
  | n + 1, i => if q i = key then i else find_loop q key n (i + 1)

/-- The loop `for(; i < 6; i++) queue[i] = queue[i+1]` with `n` iterations
left at index `i`. -/
def shift_up : Nat → Nat → (Nat → Nat) → Nat → Nat
  | 0, _, q => q
  | n + 1, i, q => shift_up n (i + 1) (upd q i (q (i + 1)))

/-- The function `key_release`. In `mod_keys &= ~layout[key]` the complement
is taken on the promoted 16-bit `int` and the result is stored as a byte. -/
def key_release (K : KeyCodes) (key : Nat) (s : State) : State :=
  let s0 := { s with log := s.log ++ [Call.key_release key] }
  let s1 := { s0 with pressed := upd s0.pressed key false }
  let s2 := { s1 with release := upd s1.release key 0x00 }
  let s3 :=
    if is_modifier key then
      { s2 with mod_keys := (s2.mod_keys &&& (0xFFFF ^^^ layout K key)) % 256 }
    else
      let i := find_loop s2.queue key 6 0
      { s2 with queue := shift_up (6 - i) i s2.queue }
  send K s3

/-! ## The timer interrupt -/

/-- The body of the loop of `ISR(TIMER0_COMPA_vect)` for one key:
`if(release[key] == 0x01) key_release(key); release[key] >>= 1;`. -/
def isr_key (K : KeyCodes) (s : State) (key : Nat) : State :=
  let s1 := if s.release key = 0x01 then key_release K key s else s
  { s1 with release := upd s1.release key (s1.release key >>> 1) }

/-- The interrupt routine `ISR(TIMER0_COMPA_vect)`: one timer tick. Its loop
variable `key` is local to the routine. -/
def ISR (K : KeyCodes) (s : State) : State :=
  (List.range NKEY).foldl (isr_key K) s

/-! ## The scan loop of `main` -/

/-- The sample `current = (~PINB & 0x3F)` for the byte read from `PINB`. -/
def sample (pinb : Nat) : Nat := (0xFFFF ^^^ (pinb % 256)) &&& 0x3F

/-- The statement controlled by the row loop, for the key `key` of the state:
the edge dispatch of lines 81 to 89. -/
def edge (K : KeyCodes) (current change mask : Nat) (s : State) : State :=
  if change &&& mask ≠ 0 then
    if current &&& mask ≠ 0 then
      if s.pressed s.key = false then
        key_press K s.key s
      else
        { s with release := upd s.release s.key 0 }
    else
      { s with release := upd s.release s.key 0x80 }
  else
    s

/-- The row loop
`for(row = 0, mask = 0x01; row < NROW; row++, key++, mask <<= 1)` with `n`
iterations left; `key` and `mask` are bytes. -/
def row_loop (K : KeyCodes) (current change : Nat) : Nat → Nat → State → State
  | 0, _, s => s
  | n + 1, mask, s =>
    let s1 := edge K current change mask s
    row_loop K current change n ((mask <<< 1) % 256) { s1 with key := (s1.key + 1) % 256 }

/-- The body of the column loop of `main` for the sample `current`, without
the increment of `col`. The writes to the column port are not modelled. -/
def scan_column (K : KeyCodes) (current : Nat) (s : State) : State :=
  let change := current ^^^ s.previous s.col
  let s1 :=
    if change ≠ 0 then
      row_loop K current change NROW 0x01 s
    else
      { s with key := (s.key + NROW) % 256 }
  { s1 with previous := upd s1.previous s1.col current }

/-- One iteration of the column loop `for(col = 0, key = 0; col < NCOL; col++)`
inside `for(;;)`: the body, the increment, and, when the column loop is left,
its re-initialisation for the next cycle (`update_leds` touches no modelled
state). -/
def scan_step (K : KeyCodes) (pinb : Nat) (s : State) : State :=
  let s1 := scan_column K (sample pinb) s
  if s1.col + 1 < NCOL then
    { s1 with col := s1.col + 1 }
  else
    { s1 with col := 0, key := 0 }

/-- The state when the scan loop is entered: `setup_io_pins` has cleared
`pressed` and `release`, the globals have their initialisers, and
`for(col = 0; col < NROW; col++) previous[col] = 0;` has cleared the first
`NROW` entries of `previous`; the other entries of the local array hold
whatever was in memory, given by `garbage`. -/
def init_state (garbage : Nat → Nat) : State :=
  { pressed := fun _ => false
    release := fun _ => 0x00
    queue := fun _ => 255
    mod_keys := 0
    keyboard_keys := fun _ => 0
    keyboard_modifier_keys := 0
    previous := fun c => if c < NROW then 0 else garbage c % 256
    col := 0
    key := 0
    log := [] }

/-- What can happen next: a timer tick, or the scan of the next column with
the byte read from `PINB`. -/
inductive Event where
  | tick
  | scan (pinb : Nat)
  deriving DecidableEq, Repr

/-- One atomic step. -/
def step (K : KeyCodes) (s : State) : Event → State
  | Event.tick => ISR K s
  | Event.scan pinb => scan_step K pinb s

/-- The state after a sequence of events. -/
def run (K : KeyCodes) (s : State) (evs : List Event) : State :=
  evs.foldl (step K) s

/-- The key codes of the USB HID usage tables, a concrete instance of
`KeyCodes`; the modifier codes are the bits of the modifier byte. -/
def hidCodes : KeyCodes :=
  { KEY_LEFT_CTRL := 0x01, KEY_LEFT_SHIFT := 0x02, KEY_LEFT_ALT := 0x04, KEY_LEFT_GUI := 0x08
    KEY_RIGHT_CTRL := 0x10, KEY_RIGHT_SHIFT := 0x20, KEY_RIGHT_ALT := 0x40, KEY_RIGHT_GUI := 0x80
    KEY_A := 4, KEY_B := 5, KEY_C := 6, KEY_D := 7, KEY_E := 8, KEY_F := 9, KEY_G := 10
    KEY_H := 11, KEY_I := 12, KEY_J := 13, KEY_K := 14, KEY_L := 15, KEY_M := 16, KEY_N := 17
    KEY_O := 18, KEY_P := 19, KEY_Q := 20, KEY_R := 21, KEY_S := 22, KEY_T := 23, KEY_U := 24
    KEY_V := 25, KEY_W := 26, KEY_X := 27, KEY_Y := 28, KEY_Z := 29
    KEY_1 := 30, KEY_2 := 31, KEY_3 := 32, KEY_4 := 33, KEY_5 := 34, KEY_6 := 35, KEY_7 := 36
    KEY_8 := 37, KEY_9 := 38, KEY_0 := 39
    KEY_ENTER := 40, KEY_ESC := 41, KEY_BACKSPACE := 42, KEY_TAB := 43, KEY_SPACE := 44
    KEY_MINUS := 45, KEY_EQUAL := 46, KEY_LEFT_BRACE := 47, KEY_RIGHT_BRACE := 48
    KEY_BACKSLASH := 49, KEY_SEMICOLON := 51, KEY_QUOTE := 52, KEY_TILDE := 53
    KEY_COMMA := 54, KEY_PERIOD := 55, KEY_SLASH := 56, KEY_CAPS_LOCK := 57
    KEY_F1 := 58, KEY_F2 := 59, KEY_F3 := 60, KEY_F4 := 61, KEY_F5 := 62, KEY_F6 := 63
    KEY_F7 := 64, KEY_F8 := 65, KEY_F9 := 66, KEY_F10 := 67, KEY_F11 := 68, KEY_F12 := 69
    KEY_PRINTSCREEN := 70, KEY_SCROLL_LOCK := 71, KEY_PAUSE := 72, KEY_INSERT := 73
    KEY_HOME := 74, KEY_PAGE_UP := 75, KEY_DELETE := 76, KEY_END := 77, KEY_PAGE_DOWN := 78
    KEY_RIGHT := 79, KEY_LEFT := 80, KEY_DOWN := 81, KEY_UP := 82
    KEY_PIPE := 100, KEY_APPLICATION := 101 }

/-! ## Derived notions used in the statements -/

/-- The calls `key_press(k1)`, ..., `key_press(kn)` in this order. -/
def press_all (K : KeyCodes) (s : State) (ks : List Nat) : State :=
  ks.foldl (fun s k => key_press K k s) s

/-- An example state: from the initial state, the modifier key 0
(`KEY_LEFT_CTRL`), then the keys 8 (`KEY_A`) and 14 (`KEY_S`) are pressed. -/
def demo_state : State :=
  press_all hidCodes (init_state (fun _ => 0)) [0, 8, 14]

/-- The loop counters of `main` between two column iterations: `col` is a
column and `key` is the index of the first key of that column. -/
def counters_ok (s : State) : Prop := s.col < NCOL ∧ s.key = s.col * NROW

instance (s : State) : Decidable (counters_ok s) := by
  unfold counters_ok; exact inferInstance

/-- A predicate on states that is kept by each elementary state change the
scan loop and the interrupt routine can make: a `key_press` of a key that is
not pressed, a `key_release` of a key whose timer is 0x01, the three stores to
`release` (clear for a pressed key, arm, shift right), and stores to the
locals of `main`. -/
structure Closed (K : KeyCodes) (P : State → Prop) : Prop where
  on_press : ∀ s k, k < NKEY → s.pressed k = false → P s → P (key_press K k s)
  on_release : ∀ s k, k < NKEY → s.release k = 1 → P s → P (key_release K k s)
  on_clear : ∀ s k, k < NKEY → s.pressed k = true → P s →
    P { s with release := upd s.release k 0 }
  on_arm : ∀ s k, k < NKEY → P s → P { s with release := upd s.release k 0x80 }
  on_decay : ∀ s k, k < NKEY → P s →
    P { s with release := upd s.release k (s.release k >>> 1) }
  on_loc : ∀ s prev col key, P s → P { s with previous := prev, col := col, key := key }

/-- The indices of the modifier keys, read off `is_modifier`. -/
def modifier_keys : List Nat := (List.range NKEY).filter is_modifier

/-- What the development assumes about the key codes of `usb_keyboard.h`: the
entries of `layout` are bytes (the table is `uint8_t`), and the codes of two
different modifier keys share no bit. -/
def codes_ok (K : KeyCodes) : Prop :=
  (∀ k, k < NKEY → layout K k < 256) ∧
  (modifier_keys.map (layout K)).Pairwise (fun a b => a &&& b = 0)

instance (K : KeyCodes) : Decidable (codes_ok K) := by
  unfold codes_ok; exact inferInstance

/-- The bitwise OR of `layout[k]` over all keys `k` with `is_modifier[k]` and
`pressed[k]`. -/
def mod_mask (K : KeyCodes) (pressed : Nat → Bool) : Nat :=
  (List.range NKEY).foldl
    (fun m k => if is_modifier k && pressed k then m ||| layout K k else m) 0

/-- A confirmed event: a call `key_press(key)` or `key_release(key)`. -/
inductive Confirmed where
  | down (key : Nat)
  | up (key : Nat)
  deriving DecidableEq, Repr

/-- The key of a confirmed event. -/
def Confirmed.key : Confirmed → Nat
  | Confirmed.down k => k
  | Confirmed.up k => k

/-- The call that a confirmed event stands for. -/
def confirm (K : KeyCodes) (s : State) : Confirmed → State
  | Confirmed.down k => key_press K k s
  | Confirmed.up k => key_release K k s

/-- A sequence of confirmed events, applied in order. -/
def confirm_all (K : KeyCodes) (s : State) (cs : List Confirmed) : State :=
  cs.foldl (confirm K) s

/-- The modifier mask, bit by bit, and the modifier byte last handed to
`send`. -/
def mod_inv (K : KeyCodes) (s : State) : Prop :=
  s.keyboard_modifier_keys = s.mod_keys ∧
  ∀ b, s.mod_keys.testBit b = true ↔
    ∃ k, k < NKEY ∧ is_modifier k = true ∧ s.pressed k = true ∧ (layout K k).testBit b = true

/-- The queue facts kept by the firmware: `queue[6]` is the sentinel, every
other entry that is not the sentinel is a non-modifier key that is pressed,
and no key sits at two positions of `queue[0..5]`. -/
def queue_inv (s : State) : Prop :=
  s.queue 6 = 255 ∧
  (∀ i, i < 6 → s.queue i ≠ 255 →
    s.queue i < NKEY ∧ is_modifier (s.queue i) = false ∧ s.pressed (s.queue i) = true) ∧
  (∀ i j, i < 6 → j < 6 → i ≠ j → s.queue i ≠ 255 → s.queue i ≠ s.queue j)

/-- What the firmware keeps for one key, with the number of `key_press` and
`key_release` calls made for it so far. -/
structure KeyView where
  pressed : Bool
  release : Nat
  presses : Nat
  releases : Nat
  deriving DecidableEq, Repr

/-- The view of key `k` in a state. -/
def view (k : Nat) (s : State) : KeyView :=
  { pressed := s.pressed k
    release := s.release k
    presses := s.log.count (Call.key_press k)
    releases := s.log.count (Call.key_release k) }

/-- The effect of one timer tick on the view of a key. -/
def tick_view (v : KeyView) : KeyView :=
  if v.release = 1 then
    { pressed := false, release := 0, presses := v.presses, releases := v.releases + 1 }
  else
    { v with release := v.release >>> 1 }

/-- The effect of a scanned edge on the view of its key: `down` tells whether
the changed bit is now active. -/
def edge_view (down : Bool) (v : KeyView) : KeyView :=
  if down then
    if v.pressed then { v with release := 0 }
    else { pressed := true, release := 0, presses := v.presses + 1, releases := v.releases }
  else
    { v with release := 0x80 }

/-- The number of positions of `queue[0..5]` that hold `k`. -/
def occurrences (q : Nat → Nat) (k : Nat) : Nat :=
  ((List.range 6).filter (fun i => q i = k)).length

/-- A report with slots `keys` and modifier byte `modifier` carries the key
`key`: a non-modifier key has its code in slot 0, a modifier key has its bits
OR-ed into the modifier byte. -/
def report_carries (K : KeyCodes) (key : Nat) (keys : List Nat) (modifier : Nat) : Prop :=
  (is_modifier key = false → keys.getD 0 0 = layout K key) ∧
  (is_modifier key = true → ∃ m, modifier = (m ||| layout K key) % 256)

/-- Scanning the next column with the byte `pinb` on `PINB` finds the bit of
key `k` changed: `k` is a key of the column under the counter and its bit of
`change` is set. -/
def edge_on (k : Nat) (s : State) (pinb : Nat) : Bool :=
  decide (s.key ≤ k) && decide (k < s.key + NROW) &&
    (sample pinb ^^^ s.previous s.col).testBit (k - s.key)

/-- The changed bit of key `k` is now active: a down edge. -/
def down_edge_on (k : Nat) (s : State) (pinb : Nat) : Bool :=
  edge_on k s pinb && (sample pinb).testBit (k - s.key)

/-- The changed bit of key `k` is now inactive: an up edge. -/
def up_edge_on (k : Nat) (s : State) (pinb : Nat) : Bool :=
  edge_on k s pinb && !(sample pinb).testBit (k - s.key)

/-- The number of timer ticks in a sequence of events. -/
def ticks (evs : List Event) : Nat := evs.count Event.tick

/-- The event `e`, arriving in state `s`, is not a scan that finds the bit of
key `k` changed. -/
def no_edge_on (k : Nat) (s : State) : Event → Prop
  | Event.tick => True
  | Event.scan pinb => edge_on k s pinb = false

instance (k : Nat) (s : State) (e : Event) : Decidable (no_edge_on k s e) := by
  cases e <;> unfold no_edge_on <;> exact inferInstance

/-- No scan of the run started in `s` finds the bit of key `k` changed. -/
def quiet (K : KeyCodes) (k : Nat) : State → List Event → Prop
  | _, [] => True
  | s, e :: evs => no_edge_on k s e ∧ quiet K k (step K s e) evs

/-- Bookkeeping for the debounce window of key `k`: `some j` when the last
scanned edge on `k` was an up edge and `j` ticks have come since, `none`
otherwise. This is its value after the event `e` arriving in state `s`. -/
def pending_after (k : Nat) (p : Option Nat) (s : State) : Event → Option Nat
  | Event.tick => p.map (fun j => j + 1)
  | Event.scan pinb =>
    if up_edge_on k s pinb then some 0 else if down_edge_on k s pinb then none else p

/-- The event `e` is not the 8th tick after an up edge that no down edge has
followed. -/
def in_window (p : Option Nat) : Event → Prop
  | Event.tick => ∀ j, p = some j → j < 7
  | Event.scan _ => True

instance (p : Option Nat) (e : Event) : Decidable (in_window p e) := by
  cases e with
  | tick =>
    cases p with
    | none => exact isTrue (fun j h => by cases h)
    | some i =>
      exact decidable_of_iff (i < 7)
        ⟨fun h j hj => by cases hj; exact h, fun h => h i rfl⟩
  | scan pinb => exact isTrue trivial

/-- In the run started in `s`, every scanned up edge on key `k` is followed by
a scanned down edge on `k` before the 8th tick after it. -/
def window_ok (K : KeyCodes) (k : Nat) : Option Nat → State → List Event → Prop
  | _, _, [] => True
  | p, s, e :: evs =>
    in_window p e ∧ window_ok K k (pending_after k p s e) (step K s e) evs

/-- Deciding `quiet` by running the events. -/
def quiet_decide (K : KeyCodes) (k : Nat) : (s : State) → (evs : List Event) →
    Decidable (quiet K k s evs)
  | _, [] => isTrue trivial
  | s, e :: evs => @instDecidableAnd _ _ _ (quiet_decide K k (step K s e) evs)

instance (K : KeyCodes) (k : Nat) (s : State) (evs : List Event) :
    Decidable (quiet K k s evs) := quiet_decide K k s evs

/-- Deciding `window_ok` by running the events. -/
def window_ok_decide (K : KeyCodes) (k : Nat) : (p : Option Nat) → (s : State) →
    (evs : List Event) → Decidable (window_ok K k p s evs)
  | _, _, [] => isTrue trivial
  | p, s, e :: evs =>
    @instDecidableAnd _ _ _ (window_ok_decide K k (pending_after k p s e) (step K s e) evs)

instance (K : KeyCodes) (k : Nat) (p : Option Nat) (s : State) (evs : List Event) :
    Decidable (window_ok K k p s evs) := window_ok_decide K k p s evs

/-- A state reached from the initial state in which key 2 is pressed and its
release timer has just been armed: column 0 is scanned with row 2 active,
then the other sixteen columns and column 0 again with no row active. -/
def armed_state : State :=
  run hidCodes (init_state (fun _ => 0))
    (Event.scan 0xFB :: List.replicate 17 (Event.scan 0xFF))

/-- The state seven ticks later: key 2 is still pressed and its release timer
stands at 0x01. -/
def pending_state : State :=
  run hidCodes armed_state (List.replicate 7 Event.tick)

/-- What holds of the view of a key that stays pressed, for each value of the
bookkeeping of `pending_after`: no timer when no up edge is pending, and the
timer at `0x80 >> j` when `j <= 7` ticks have come since the up edge. -/
def window_inv (p : Option Nat) (v : KeyView) : Prop :=
  v.pressed = true ∧
    match p with
    | none => v.release = 0
    | some j => j ≤ 7 ∧ v.release = 0x80 >>> j

/-- A bouncing release of key 2, seen from `armed_state` on: three ticks after
the up edge the other sixteen columns are scanned, then column 0 with row 2
active again, and nine more ticks follow. -/
def bounce_events : List Event :=
  List.replicate 3 Event.tick ++ List.replicate 16 (Event.scan 0xFF) ++
    [Event.scan 0xFB] ++ List.replicate 9 Event.tick

/-- One tick and then the scans of the sixteen columns 1 to 16 with no row
active: what lies between a scan of column 0 and the next one, one tick
after the first. -/
def round_after_tick : List Event :=
  Event.tick :: List.replicate 16 (Event.scan 0xFF)

/-- The number of column scans in a sequence of events. -/
def scans : List Event → Nat
  | [] => 0
  | Event.tick :: evs => scans evs
  | Event.scan _ :: evs => scans evs + 1

/-- The edge dispatch for row `r` of the column whose first key is `base`:
the key counter stands at `base + r` and the mask at `2 ^ r`. -/
def dispatch_row (K : KeyCodes) (current change base : Nat) (s : State) (r : Nat) : State :=
  edge K current change (2 ^ r) { s with key := base + r }

/-- The search loop of `key_release` as `find_loop`, returning with the final
index the list of the indices at which `queue` is read, in order. -/
def find_loop_traced (q : Nat → Nat) (key : Nat) : Nat → Nat → Nat × List Nat
  | 0, i => (i, [])
  | n + 1, i =>
    if q i = key then (i, [i])
    else ((find_loop_traced q key n (i + 1)).1, i :: (find_loop_traced q key n (i + 1)).2)

/-- The shift loop of `key_release` as `shift_up`, returning with the new
queue the list of the indices at which `queue` is read (`queue[i+1]` in each
iteration), in order. -/
def shift_up_traced : Nat → Nat → (Nat → Nat) → (Nat → Nat) × List Nat
  | 0, _, q => (q, [])
  | n + 1, i, q =>
    ((shift_up_traced n (i + 1) (upd q i (q (i + 1)))).1,
      (i + 1) :: (shift_up_traced n (i + 1) (upd q i (q (i + 1)))).2)

/-- The indices at which `key_release` of a non-modifier key reads `queue`:
those of the search loop, those of the shift loop, and those of the loop of
`send`. -/
def key_release_reads (q : Nat → Nat) (key : Nat) : List Nat :=
  (find_loop_traced q key 6 0).2 ++
    (shift_up_traced (6 - (find_loop_traced q key 6 0).1) (find_loop_traced q key 6 0).1 q).2 ++
    List.range 6

/-- The loop `for(col = 0; col < NROW; col++) previous[col] = 0;` of `main`,
run on the local array `previous` as it is found in memory. -/
def clear_previous (prev : Nat → Nat) : Nat → Nat :=
  (List.range NROW).foldl (fun p col => upd p col 0) prev

/-- The state in which the first scan cycle reaches column 6, when the memory
of `previous[6]` held 0x01 and no key is held down: columns 0 to 5 have been
scanned with no row active. -/
def garbage_state : State :=
  run hidCodes (init_state (fun c => if c = 6 then 1 else 0))
    (List.replicate 6 (Event.scan 0xFF))

/-- The values a release timer takes: 0, or a single bit of a byte. -/
def timer_values : List Nat := [0, 0x80, 0x40, 0x20, 0x10, 0x08, 0x04, 0x02, 0x01]

/-- Every release timer is 0 or a single bit. -/
def release_inv (s : State) : Prop := ∀ k, s.release k ∈ timer_values

/-- The sentinel entries of the queue are trailing: `queue[6]` is 255, every
other entry is 255 or a key index, nothing but 255 follows a 255, and the six
key slots last handed to `usb_keyboard_send` are those of the queue. -/
def trail_inv (K : KeyCodes) (s : State) : Prop :=
  s.queue 6 = 255 ∧
  (∀ i, i < 6 → s.queue i = 255 ∨ s.queue i < NKEY) ∧
  (∀ i j, i < j → j ≤ 6 → s.queue i = 255 → s.queue j = 255) ∧
  (∀ i, i < 6 → s.keyboard_keys i = if s.queue i = 255 then 0 else layout K (s.queue i))

/-! ## Basic facts about array stores and the three report functions -/

@[simp] theorem upd_same {α : Type} (a : Nat → α) (i : Nat) (v : α) : upd a i v i = v := by
  simp [upd]

theorem upd_apply {α : Type} (a : Nat → α) (i j : Nat) (v : α) :
    upd a i v j = if j = i then v else a j := rfl

@[simp] theorem upd_other {α : Type} (a : Nat → α) (i j : Nat) (v : α) (h : j ≠ i) :
    upd a i v j = a j := by
  simp [upd, h]

theorem range6 : List.range 6 = [0, 1, 2, 3, 4, 5] := by decide

@[simp] theorem send_pressed (K : KeyCodes) (s : State) : (send K s).pressed = s.pressed := by
  simp [send, range6, send_slot]

@[simp] theorem send_release (K : KeyCodes) (s : State) : (send K s).release = s.release := by
  simp [send, range6, send_slot]

@[simp] theorem send_queue (K : KeyCodes) (s : State) : (send K s).queue = s.queue := by
  simp [send, range6, send_slot]

@[simp] theorem send_mod_keys (K : KeyCodes) (s : State) : (send K s).mod_keys = s.mod_keys := by
  simp [send, range6, send_slot]

@[simp] theorem send_previous (K : KeyCodes) (s : State) : (send K s).previous = s.previous := by
  simp [send, range6, send_slot]

@[simp] theorem send_col (K : KeyCodes) (s : State) : (send K s).col = s.col := by
  simp [send, range6, send_slot]

@[simp] theorem send_key (K : KeyCodes) (s : State) : (send K s).key = s.key := by
  simp [send, range6, send_slot]

@[simp] theorem send_modifier (K : KeyCodes) (s : State) :
    (send K s).keyboard_modifier_keys = s.mod_keys := by
  simp [send, range6, send_slot]

/-- The slot value that `send` computes for queue position `i`. -/
theorem send_keys (K : KeyCodes) (s : State) (i : Nat) (hi : i < 6) :
    (send K s).keyboard_keys i = if s.queue i < 255 then layout K (s.queue i) else 0 := by
  have h : i = 0 ∨ i = 1 ∨ i = 2 ∨ i = 3 ∨ i = 4 ∨ i = 5 := by omega
  rcases h with h | h | h | h | h | h <;> subst h <;> simp [send, range6, send_slot, upd_apply]

theorem send_log (K : KeyCodes) (s : State) :
    (send K s).log = s.log ++
      [Call.usb_keyboard_send ((List.range 6).map (send K s).keyboard_keys) s.mod_keys] := by
  simp [send, range6, send_slot]

/-! ### `key_press` -/

theorem shift_down_apply (q : Nat → Nat) (i : Nat) :
    shift_down q i = if 1 ≤ i ∧ i ≤ 5 then q (i - 1) else q i := by
  by_cases h : 1 ≤ i ∧ i ≤ 5
  · have h' : i = 1 ∨ i = 2 ∨ i = 3 ∨ i = 4 ∨ i = 5 := by omega
    rcases h' with h' | h' | h' | h' | h' <;> subst h' <;> simp [shift_down, upd_apply]
  · have h1 : i ≠ 1 := by omega
    have h2 : i ≠ 2 := by omega
    have h3 : i ≠ 3 := by omega
    have h4 : i ≠ 4 := by omega
    have h5 : i ≠ 5 := by omega
    simp [shift_down, upd_apply, h, h1, h2, h3, h4, h5]

@[simp] theorem key_press_pressed (K : KeyCodes) (k : Nat) (s : State) :
    (key_press K k s).pressed = upd s.pressed k true := by
  unfold key_press; split <;> simp

@[simp] theorem key_press_release (K : KeyCodes) (k : Nat) (s : State) :
    (key_press K k s).release = upd s.release k 0 := by
  unfold key_press; split <;> simp

@[simp] theorem key_press_previous (K : KeyCodes) (k : Nat) (s : State) :
    (key_press K k s).previous = s.previous := by
  unfold key_press; split <;> simp

@[simp] theorem key_press_col (K : KeyCodes) (k : Nat) (s : State) :
    (key_press K k s).col = s.col := by
  unfold key_press; split <;> simp

@[simp] theorem key_press_key (K : KeyCodes) (k : Nat) (s : State) :
    (key_press K k s).key = s.key := by
  unfold key_press; split <;> simp

theorem key_press_queue (K : KeyCodes) (k : Nat) (s : State) :
    (key_press K k s).queue =
      if is_modifier k then s.queue else upd (shift_down s.queue) 0 k := by
  unfold key_press; split <;> simp

theorem key_press_mod_keys (K : KeyCodes) (k : Nat) (s : State) :
    (key_press K k s).mod_keys =
      if is_modifier k then (s.mod_keys ||| layout K k) % 256 else s.mod_keys := by
  unfold key_press; split <;> simp

/-- The queue after `key_press` of a non-modifier key, entry by entry. -/
theorem key_press_queue_apply (K : KeyCodes) (k : Nat) (s : State) (hk : is_modifier k = false)
    (i : Nat) :
    (key_press K k s).queue i =
      if i = 0 then k else if i ≤ 5 then s.queue (i - 1) else s.queue i := by
  rw [key_press_queue, hk]
  by_cases h0 : i = 0
  · simp [h0]
  · have : 1 ≤ i := by omega
    simp [upd_apply, h0, shift_down_apply, this]

theorem key_press_log (K : KeyCodes) (k : Nat) (s : State) :
    (key_press K k s).log = s.log ++ [Call.key_press k,
      Call.usb_keyboard_send ((List.range 6).map (key_press K k s).keyboard_keys)
        (key_press K k s).mod_keys] := by
  unfold key_press; split <;> simp [send_log]

/-! ### `key_release` -/

theorem find_loop_spec (q : Nat → Nat) (k : Nat) (n i : Nat) :
    i ≤ find_loop q k n i ∧ find_loop q k n i ≤ i + n ∧
      (∀ j, i ≤ j → j < find_loop q k n i → q j ≠ k) ∧
      (find_loop q k n i < i + n → q (find_loop q k n i) = k) := by
  induction n generalizing i with
  | zero => simp [find_loop]; intro j h1 h2; omega
  | succ n ih =>
    unfold find_loop
    by_cases h : q i = k
    · simp [h]; intro j h1 h2; omega
    · simp only [h, if_false]
      obtain ⟨h1, h2, h3, h4⟩ := ih (i + 1)
      refine ⟨by omega, by omega, ?_, ?_⟩
      · intro j hj1 hj2
        by_cases hji : j = i
        · subst hji; exact h
        · exact h3 j (by omega) hj2
      · intro hlt; exact h4 (by omega)

theorem shift_up_apply (n i : Nat) (q : Nat → Nat) (j : Nat) :
    shift_up n i q j = if i ≤ j ∧ j < i + n then q (j + 1) else q j := by
  induction n generalizing i q with
  | zero =>
    have h : ¬ (i ≤ j ∧ j < i) := by omega
    simp [shift_up, h]
  | succ n ih =>
    unfold shift_up
    rw [ih]
    by_cases h1 : i + 1 ≤ j ∧ j < i + 1 + n
    · have h2 : i ≤ j ∧ j < i + (n + 1) := by omega
      have h3 : j + 1 ≠ i := by omega
      simp [h1, h2, upd_apply, h3]
    · by_cases h4 : j = i
      · subst h4; simp [upd_apply]
      · have h2 : ¬ (i ≤ j ∧ j < i + (n + 1)) := by omega
        simp [h1, h2, upd_apply, h4]

@[simp] theorem key_release_pressed (K : KeyCodes) (k : Nat) (s : State) :
    (key_release K k s).pressed = upd s.pressed k false := by
  unfold key_release; split <;> simp

@[simp] theorem key_release_release (K : KeyCodes) (k : Nat) (s : State) :
    (key_release K k s).release = upd s.release k 0 := by
  unfold key_release; split <;> simp

@[simp] theorem key_release_previous (K : KeyCodes) (k : Nat) (s : State) :
    (key_release K k s).previous = s.previous := by
  unfold key_release; split <;> simp

@[simp] theorem key_release_col (K : KeyCodes) (k : Nat) (s : State) :
    (key_release K k s).col = s.col := by
  unfold key_release; split <;> simp

@[simp] theorem key_release_key (K : KeyCodes) (k : Nat) (s : State) :
    (key_release K k s).key = s.key := by
  unfold key_release; split <;> simp

theorem key_release_mod_keys (K : KeyCodes) (k : Nat) (s : State) :
    (key_release K k s).mod_keys =
      if is_modifier k then (s.mod_keys &&& (0xFFFF ^^^ layout K k)) % 256 else s.mod_keys := by
  unfold key_release; split <;> simp

/-- The queue after `key_release` of a non-modifier key, entry by entry, in
terms of the index at which the search loop stops. -/
theorem key_release_queue_apply (K : KeyCodes) (k : Nat) (s : State)
    (hk : is_modifier k = false) (j : Nat) :
    (key_release K k s).queue j =
      if find_loop s.queue k 6 0 ≤ j ∧ j < 6 then s.queue (j + 1) else s.queue j := by
  have hf := (find_loop_spec s.queue k 6 0).2.1
  unfold key_release
  simp only [hk]
  simp [shift_up_apply]
  by_cases h : find_loop s.queue k 6 0 ≤ j ∧ j < 6
  · have h' : find_loop s.queue k 6 0 ≤ j ∧ j < find_loop s.queue k 6 0 + (6 - find_loop s.queue k 6 0) := by
      omega
    simp [h, h']
  · have h' : ¬ (find_loop s.queue k 6 0 ≤ j ∧ j < find_loop s.queue k 6 0 + (6 - find_loop s.queue k 6 0)) := by
      omega
    simp [h, h']

theorem key_release_queue_mod (K : KeyCodes) (k : Nat) (s : State)
    (hk : is_modifier k = true) : (key_release K k s).queue = s.queue := by
  unfold key_release; simp [hk]

theorem key_release_log (K : KeyCodes) (k : Nat) (s : State) :
    (key_release K k s).log = s.log ++ [Call.key_release k,
      Call.usb_keyboard_send ((List.range 6).map (key_release K k s).keyboard_keys)
        (key_release K k s).mod_keys] := by
  unfold key_release; split <;> simp [send_log]

/-! ## C1: report assembly -/

/-- C1. For every state in which each of `queue[0..5]` is a key index below
`NKEY` or the sentinel 255, `send` fills slot `i` (for `i` in 0..5) with
`layout[queue[i]]` when `queue[i]` is not 255 and with 0 when it is 255, sets
the modifier byte to `mod_keys`, hands exactly these six slots, in queue
order, and this modifier byte to `usb_keyboard_send`, and changes none of
`pressed`, `release`, `queue`, `mod_keys`. -/
theorem send_report (K : KeyCodes) (s : State)
    (hq : ∀ i, i < 6 → s.queue i < NKEY ∨ s.queue i = 255) :
    (∀ i, i < 6 → (send K s).keyboard_keys i =
        if s.queue i = 255 then 0 else layout K (s.queue i)) ∧
    (send K s).keyboard_modifier_keys = s.mod_keys ∧
    (send K s).log = s.log ++ [Call.usb_keyboard_send
        ((List.range 6).map (fun i => if s.queue i = 255 then 0 else layout K (s.queue i)))
        s.mod_keys] ∧
    (send K s).pressed = s.pressed ∧ (send K s).release = s.release ∧
    (send K s).queue = s.queue ∧ (send K s).mod_keys = s.mod_keys := by
  have hslot : ∀ i, i < 6 → (send K s).keyboard_keys i =
      if s.queue i = 255 then 0 else layout K (s.queue i) := by
    intro i hi
    rw [send_keys K s i hi]
    have := hq i hi
    by_cases h : s.queue i = 255
    · simp [h]
    · have h' : s.queue i < 255 := by simp [NKEY] at this; omega
      simp [h, h']
  refine ⟨hslot, by simp, ?_, by simp, by simp, by simp, by simp⟩
  rw [send_log]
  congr 3
  apply List.map_congr_left
  intro i hi
  exact hslot i (List.mem_range.mp hi)

/-- C1 at the example state, whose queue is `[14, 8, -, -, -, -]`: the report
carries `KEY_S`, `KEY_A` and four empty slots, with the modifier byte of
`KEY_LEFT_CTRL`. -/
theorem send_report_witness :
    (∀ i, i < 6 → demo_state.queue i < NKEY ∨ demo_state.queue i = 255) ∧
    (send hidCodes demo_state).log = demo_state.log ++
      [Call.usb_keyboard_send [22, 4, 0, 0, 0, 0] 1] := by
  have hq : ∀ i, i < 6 → demo_state.queue i < NKEY ∨ demo_state.queue i = 255 := by decide
  exact ⟨hq, (send_report hidCodes demo_state hq).2.2.1⟩

/-! ## C2: queue bound and eviction -/

theorem press_all_append (K : KeyCodes) (s : State) (ks : List Nat) (k : Nat) :
    press_all K s (ks ++ [k]) = key_press K k (press_all K s ks) := by
  simp [press_all, List.foldl_append]

/-- The queue after a run of presses of non-modifier keys on an empty queue. -/
theorem press_all_queue (K : KeyCodes) (s : State) (ks : List Nat)
    (hempty : ∀ i, i ≤ 6 → s.queue i = 255)
    (hks : ∀ k ∈ ks, is_modifier k = false) :
    (∀ i, i < 6 → (press_all K s ks).queue i =
        if i < ks.length then ks.getD (ks.length - 1 - i) 255 else 255) ∧
    (press_all K s ks).queue 6 = 255 := by
  induction ks using List.reverseRecOn with
  | nil =>
    refine ⟨?_, hempty 6 (le_refl 6)⟩
    intro i hi
    simpa [press_all] using hempty i (by omega)
  | append_singleton ks k ih =>
    have hks' : ∀ k ∈ ks, is_modifier k = false := fun x hx => hks x (by simp [hx])
    have hk : is_modifier k = false := hks k (by simp)
    obtain ⟨ih1, ih2⟩ := ih hks'
    rw [press_all_append]
    refine ⟨?_, ?_⟩
    · intro i hi
      rw [key_press_queue_apply K k _ hk]
      by_cases h0 : i = 0
      · subst h0
        simp [List.getD_append_right]
      · have h5 : i ≤ 5 := by omega
        simp only [h0, h5, if_true, if_false]
        rw [ih1 (i - 1) (by omega)]
        by_cases hl : i - 1 < ks.length
        · have hl' : i < (ks ++ [k]).length := by simp; omega
          have e : (ks ++ [k]).length - 1 - i = ks.length - 1 - (i - 1) := by simp; omega
          rw [if_pos hl, if_pos hl', e, List.getD_append _ _ _ _ (by omega)]
        · have hl' : ¬ i < (ks ++ [k]).length := by simp; omega
          rw [if_neg hl, if_neg hl']
    · rw [key_press_queue_apply K k _ hk]
      simpa using ih2

/-- C2. Starting from the empty queue (all seven entries 255), after
`key_press(k1)`, ..., `key_press(kn)` for pairwise distinct non-modifier keys,
with no release in between, `queue[i] = k(n-i)` for `i < min(n,6)` and the
remaining entries up to `queue[6]` are 255; for `n = 7` the first key `k1` is
in none of `queue[0..5]` while each of `k2`, ..., `k7` is. -/
theorem key_press_sequence (K : KeyCodes) (s : State) (ks : List Nat)
    (hempty : ∀ i, i ≤ 6 → s.queue i = 255)
    (hks : ∀ k ∈ ks, k < NKEY ∧ is_modifier k = false)
    (hnd : ks.Nodup) :
    (∀ i, i < min ks.length 6 →
        (press_all K s ks).queue i = ks.getD (ks.length - 1 - i) 255) ∧
    (∀ i, min ks.length 6 ≤ i → i ≤ 6 → (press_all K s ks).queue i = 255) ∧
    (ks.length = 7 →
      (∀ i, i < 6 → (press_all K s ks).queue i ≠ ks.getD 0 255) ∧
      (∀ j, 1 ≤ j → j < 7 → ∃ i, i < 6 ∧ (press_all K s ks).queue i = ks.getD j 255)) := by
  obtain ⟨h1, h2⟩ := press_all_queue K s ks hempty (fun k hk => (hks k hk).2)
  refine ⟨?_, ?_, ?_⟩
  · intro i hi
    rw [h1 i (by omega), if_pos (by omega)]
  · intro i hi hi6
    by_cases h6 : i = 6
    · subst h6; exact h2
    · rw [h1 i (by omega), if_neg (by omega)]
  · intro hlen
    refine ⟨?_, ?_⟩
    · intro i hi
      rw [h1 i hi, if_pos (by omega)]
      intro heq
      rw [List.getD_eq_getElem ks 255 (show ks.length - 1 - i < ks.length by omega),
        List.getD_eq_getElem ks 255 (show 0 < ks.length by omega)] at heq
      have := (List.Nodup.getElem_inj_iff hnd).mp heq
      omega
    · intro j hj1 hj7
      refine ⟨6 - j, by omega, ?_⟩
      rw [h1 (6 - j) (by omega), if_pos (by omega)]
      congr 1
      omega

/-- C2 for seven keys pressed on the initial state: the six most recent keys
are queued, most recent first, and key 2, pressed first, is gone. -/
theorem key_press_sequence_witness :
    (∀ i, i < 6 → (press_all hidCodes (init_state (fun _ => 0)) [2, 3, 4, 5, 8, 9, 10]).queue i ≠ 2) ∧
    (∀ j, 1 ≤ j → j < 7 → ∃ i, i < 6 ∧
      (press_all hidCodes (init_state (fun _ => 0)) [2, 3, 4, 5, 8, 9, 10]).queue i =
        [2, 3, 4, 5, 8, 9, 10].getD j 255) :=
  (key_press_sequence hidCodes (init_state (fun _ => 0)) [2, 3, 4, 5, 8, 9, 10]
    (by intro i _; rfl) (by decide) (by decide)).2.2 rfl

/-! ## C3: release closes the gap -/

/-- The search loop of `key_release` stops at the first occurrence. -/
theorem find_loop_first (q : Nat → Nat) (k p : Nat) (hp : p < 6) (hkp : q p = k)
    (hfirst : ∀ i, i < p → q i ≠ k) : find_loop q k 6 0 = p := by
  obtain ⟨_, h2, h3, h4⟩ := find_loop_spec q k 6 0
  have hle : find_loop q k 6 0 ≤ p := by
    by_contra hlt
    exact h3 p (Nat.zero_le p) (by omega) hkp
  have hge : p ≤ find_loop q k 6 0 := by
    by_contra hlt
    exact hfirst _ (by omega) (h4 (by omega))
  omega

/-- The search loop of `key_release` runs to 6 when the key is not queued. -/
theorem find_loop_absent (q : Nat → Nat) (k : Nat) (habs : ∀ i, i < 6 → q i ≠ k) :
    find_loop q k 6 0 = 6 := by
  obtain ⟨_, h2, _, h4⟩ := find_loop_spec q k 6 0
  by_contra hne
  exact habs _ (by omega) (h4 (by omega))

/-- C3. In every state with `queue[6] = 255` in which the non-modifier key `k`
first occurs in `queue[0..5]` at position `p`, `key_release(k)` leaves
`queue[i]` for `i < p`, moves `queue[i+1]` to `queue[i]` for `p <= i <= 4`, sets
`queue[5]` to 255, so that `queue[0..5]` is the old one with position `p`
erased and 255 appended (the order of the other entries is kept), and leaves
`mod_keys` unchanged. -/
theorem key_release_closes_gap (K : KeyCodes) (s : State) (k p : Nat)
    (h6 : s.queue 6 = 255) (_hk : k < NKEY) (hm : is_modifier k = false)
    (hp : p < 6) (hkp : s.queue p = k) (hfirst : ∀ i, i < p → s.queue i ≠ k) :
    (∀ i, i < p → (key_release K k s).queue i = s.queue i) ∧
    (∀ i, p ≤ i → i ≤ 4 → (key_release K k s).queue i = s.queue (i + 1)) ∧
    (key_release K k s).queue 5 = 255 ∧
    (List.range 6).map (key_release K k s).queue =
      ((List.range 6).map s.queue).eraseIdx p ++ [255] ∧
    (key_release K k s).mod_keys = s.mod_keys := by
  have hf := find_loop_first s.queue k p hp hkp hfirst
  have hq : ∀ j, (key_release K k s).queue j =
      if p ≤ j ∧ j < 6 then s.queue (j + 1) else s.queue j := by
    intro j
    rw [key_release_queue_apply K k s hm, hf]
  refine ⟨?_, ?_, ?_, ?_, ?_⟩
  · intro i hi
    rw [hq, if_neg (by omega)]
  · intro i h1 h2
    rw [hq, if_pos (by omega)]
  · rw [hq, if_pos (by omega), h6]
  · have hp' : p = 0 ∨ p = 1 ∨ p = 2 ∨ p = 3 ∨ p = 4 ∨ p = 5 := by omega
    rcases hp' with h | h | h | h | h | h <;> subst h <;>
      simp [range6, hq, h6, List.eraseIdx]
  · rw [key_release_mod_keys, hm]
    simp

/-- C3 at the example state, whose queue is `[14, 8, -, -, -, -]`: releasing
key 8 leaves `[14, -, -, -, -, -]`. -/
theorem key_release_closes_gap_witness :
    (List.range 6).map demo_state.queue = [14, 8, 255, 255, 255, 255] ∧
    (List.range 6).map (key_release hidCodes 8 demo_state).queue =
      [14, 255, 255, 255, 255, 255] :=
  ⟨by decide,
   (key_release_closes_gap hidCodes demo_state 8 1 (by decide) (by decide) (by decide)
      (by decide) (by decide) (by decide)).2.2.2.1⟩

/-! ## The scan loop and the interrupt: frame facts and a proof rule -/

@[simp] theorem edge_col (K : KeyCodes) (c ch m : Nat) (s : State) :
    (edge K c ch m s).col = s.col := by
  unfold edge; split_ifs <;> simp

@[simp] theorem edge_key (K : KeyCodes) (c ch m : Nat) (s : State) :
    (edge K c ch m s).key = s.key := by
  unfold edge; split_ifs <;> simp

@[simp] theorem edge_previous (K : KeyCodes) (c ch m : Nat) (s : State) :
    (edge K c ch m s).previous = s.previous := by
  unfold edge; split_ifs <;> simp

@[simp] theorem row_loop_col (K : KeyCodes) (c ch n m : Nat) (s : State) :
    (row_loop K c ch n m s).col = s.col := by
  induction n generalizing m s with
  | zero => rfl
  | succ n ih => simp [row_loop, ih]

@[simp] theorem row_loop_previous (K : KeyCodes) (c ch n m : Nat) (s : State) :
    (row_loop K c ch n m s).previous = s.previous := by
  induction n generalizing m s with
  | zero => rfl
  | succ n ih => simp [row_loop, ih]

theorem row_loop_key (K : KeyCodes) (c ch n m : Nat) (s : State) (h : s.key + n < 256) :
    (row_loop K c ch n m s).key = s.key + n := by
  induction n generalizing m s with
  | zero => rfl
  | succ n ih =>
    have e : (s.key + 1) % 256 = s.key + 1 := Nat.mod_eq_of_lt (by omega)
    simp only [row_loop]
    rw [ih]
    · simp [e]; omega
    · simp [e]; omega

@[simp] theorem scan_column_col (K : KeyCodes) (c : Nat) (s : State) :
    (scan_column K c s).col = s.col := by
  unfold scan_column; dsimp only; split_ifs <;> simp

theorem scan_column_key (K : KeyCodes) (c : Nat) (s : State) (h : s.key + NROW < 256) :
    (scan_column K c s).key = s.key + NROW := by
  unfold scan_column; dsimp only
  split_ifs
  · simp [row_loop_key K _ _ _ _ s h]
  · simp [Nat.mod_eq_of_lt h]

theorem scan_column_previous (K : KeyCodes) (c : Nat) (s : State) :
    (scan_column K c s).previous = upd s.previous s.col c := by
  unfold scan_column; dsimp only; split_ifs <;> simp

/-- The loop counters stay well formed across a column iteration. -/
theorem scan_step_counters (K : KeyCodes) (pinb : Nat) (s : State) (h : counters_ok s) :
    counters_ok (scan_step K pinb s) := by
  obtain ⟨h1, h2⟩ := h
  have hk : s.key + NROW < 256 := by simp [NROW, NCOL] at *; omega
  unfold scan_step counters_ok
  simp only [scan_column_col]
  split_ifs with hc
  · refine ⟨hc, ?_⟩
    simp [scan_column_key K _ s hk, h2]; ring
  · simp [NCOL]

@[simp] theorem isr_key_col (K : KeyCodes) (s : State) (k : Nat) : (isr_key K s k).col = s.col := by
  unfold isr_key; dsimp only; split_ifs <;> simp

@[simp] theorem isr_key_key (K : KeyCodes) (s : State) (k : Nat) : (isr_key K s k).key = s.key := by
  unfold isr_key; dsimp only; split_ifs <;> simp

@[simp] theorem isr_key_previous (K : KeyCodes) (s : State) (k : Nat) :
    (isr_key K s k).previous = s.previous := by
  unfold isr_key; dsimp only; split_ifs <;> simp

theorem isr_fold_loc (K : KeyCodes) (l : List Nat) (s : State) :
    (l.foldl (isr_key K) s).col = s.col ∧ (l.foldl (isr_key K) s).key = s.key ∧
      (l.foldl (isr_key K) s).previous = s.previous := by
  induction l generalizing s with
  | nil => simp
  | cons k l ih =>
    obtain ⟨h1, h2, h3⟩ := ih (isr_key K s k)
    simp [List.foldl_cons, h1, h2, h3]

theorem ISR_counters (K : KeyCodes) (s : State) (h : counters_ok s) : counters_ok (ISR K s) := by
  obtain ⟨h1, h2, _⟩ := isr_fold_loc K (List.range NKEY) s
  unfold counters_ok ISR
  rw [h1, h2]; exact h

theorem step_counters (K : KeyCodes) (s : State) (e : Event) (h : counters_ok s) :
    counters_ok (step K s e) := by
  cases e with
  | tick => exact ISR_counters K s h
  | scan pinb => exact scan_step_counters K pinb s h

theorem run_counters (K : KeyCodes) (s : State) (evs : List Event) (h : counters_ok s) :
    counters_ok (run K s evs) := by
  induction evs generalizing s with
  | nil => exact h
  | cons e evs ih => exact ih (step K s e) (step_counters K s e h)

theorem init_counters (g : Nat → Nat) : counters_ok (init_state g) := by
  simp [counters_ok, init_state, NCOL]

theorem edge_closed (K : KeyCodes) (P : State → Prop) (hc : Closed K P) (c ch m : Nat)
    (s : State) (hk : s.key < NKEY) (h : P s) : P (edge K c ch m s) := by
  unfold edge
  split_ifs with h1 h2 h3
  · exact hc.on_press s s.key hk h3 h
  · exact hc.on_clear s s.key hk (by simpa using h3) h
  · exact hc.on_arm s s.key hk h
  · exact h

theorem row_loop_closed (K : KeyCodes) (P : State → Prop) (hc : Closed K P) (c ch n m : Nat)
    (s : State) (hk : s.key + n ≤ NKEY) (h : P s) : P (row_loop K c ch n m s) := by
  induction n generalizing m s with
  | zero => exact h
  | succ n ih =>
    simp only [row_loop]
    have h1 : P (edge K c ch m s) := edge_closed K P hc c ch m s (by omega) h
    have e : (s.key + 1) % 256 = s.key + 1 := Nat.mod_eq_of_lt (by simp [NKEY] at hk; omega)
    apply ih
    · simp [e]; omega
    · exact hc.on_loc (edge K c ch m s) (edge K c ch m s).previous (edge K c ch m s).col _ h1

theorem scan_column_closed (K : KeyCodes) (P : State → Prop) (hc : Closed K P) (c : Nat)
    (s : State) (hk : s.key + NROW ≤ NKEY) (h : P s) : P (scan_column K c s) := by
  unfold scan_column; dsimp only
  split_ifs with h1
  · have h2 := row_loop_closed K P hc c (c ^^^ s.previous s.col) NROW 1 s hk h
    exact hc.on_loc _ _ (row_loop K c (c ^^^ s.previous s.col) NROW 1 s).col
      (row_loop K c (c ^^^ s.previous s.col) NROW 1 s).key h2
  · exact hc.on_loc s _ s.col _ h

theorem scan_step_closed (K : KeyCodes) (P : State → Prop) (hc : Closed K P) (pinb : Nat)
    (s : State) (hs : counters_ok s) (h : P s) : P (scan_step K pinb s) := by
  obtain ⟨h1, h2⟩ := hs
  have hk : s.key + NROW ≤ NKEY := by simp [NROW, NCOL, NKEY] at *; omega
  have h3 := scan_column_closed K P hc (sample pinb) s hk h
  unfold scan_step; dsimp only
  split_ifs
  · exact hc.on_loc _ (scan_column K (sample pinb) s).previous _
      (scan_column K (sample pinb) s).key h3
  · exact hc.on_loc _ (scan_column K (sample pinb) s).previous _ _ h3

theorem isr_key_closed (K : KeyCodes) (P : State → Prop) (hc : Closed K P) (s : State)
    (k : Nat) (hk : k < NKEY) (h : P s) : P (isr_key K s k) := by
  unfold isr_key; dsimp only
  split_ifs with h1
  · exact hc.on_decay _ k hk (hc.on_release s k hk h1 h)
  · exact hc.on_decay _ k hk h

theorem ISR_closed (K : KeyCodes) (P : State → Prop) (hc : Closed K P) (s : State)
    (h : P s) : P (ISR K s) := by
  have key : ∀ (l : List Nat) (s : State), (∀ k ∈ l, k < NKEY) → P s →
      P (l.foldl (isr_key K) s) := by
    intro l
    induction l with
    | nil => intro s _ h; exact h
    | cons k l ih =>
      intro s hl h
      exact ih _ (fun x hx => hl x (by simp [hx]))
        (isr_key_closed K P hc s k (hl k (by simp)) h)
  exact key _ s (fun k hk => List.mem_range.mp hk) h

/-- Proof rule for runs: a closed predicate holds after every sequence of
ticks and column scans. -/
theorem run_closed (K : KeyCodes) (P : State → Prop) (hc : Closed K P) (s : State)
    (evs : List Event) (hs : counters_ok s) (h : P s) : P (run K s evs) := by
  induction evs generalizing s with
  | nil => exact h
  | cons e evs ih =>
    apply ih (step K s e) (step_counters K s e hs)
    cases e with
    | tick => exact ISR_closed K P hc s h
    | scan pinb => exact scan_step_closed K P hc pinb s hs h

/-! ## C4: the modifier mask -/

theorem hidCodes_ok : codes_ok hidCodes := by
  unfold codes_ok; decide

theorem mem_modifier_keys (k : Nat) : k ∈ modifier_keys ↔ k < NKEY ∧ is_modifier k = true := by
  simp [modifier_keys, List.mem_filter]

/-- Two different modifier keys have codes without a common bit. -/
theorem modifier_disjoint (K : KeyCodes) (hK : codes_ok K) (k k' : Nat)
    (hk : k < NKEY) (hm : is_modifier k = true) (hk' : k' < NKEY) (hm' : is_modifier k' = true)
    (hne : k ≠ k') (b : Nat) (h1 : (layout K k).testBit b = true)
    (h2 : (layout K k').testBit b = true) : False := by
  have hp : modifier_keys.Pairwise (fun a b => layout K a &&& layout K b = 0) :=
    List.pairwise_map.mp hK.2
  have hsymm : Symmetric (fun a b => layout K a &&& layout K b = 0) := by
    intro a b h; rw [Nat.land_comm]; exact h
  have h0 := hp.forall hsymm ((mem_modifier_keys k).mpr ⟨hk, hm⟩)
    ((mem_modifier_keys k').mpr ⟨hk', hm'⟩) hne
  have h3 : (layout K k &&& layout K k').testBit b = true := by
    rw [Nat.testBit_and, h1, h2]; rfl
  rw [h0] at h3
  simp at h3

theorem layout_bit_lt (K : KeyCodes) (hK : codes_ok K) (k : Nat) (hk : k < NKEY) (b : Nat)
    (h : (layout K k).testBit b = true) : b < 8 := by
  by_contra hb
  have h8 : layout K k < 2 ^ b :=
    lt_of_lt_of_le (hK.1 k hk) (by
      calc 256 = 2 ^ 8 := by norm_num
        _ ≤ 2 ^ b := Nat.pow_le_pow_right (by norm_num) (by omega))
  rw [Nat.testBit_lt_two_pow h8] at h
  exact Bool.false_ne_true h

theorem mask_fold_bit (K : KeyCodes) (p : Nat → Bool) (l : List Nat) (m b : Nat) :
    (l.foldl (fun m k => if is_modifier k && p k then m ||| layout K k else m) m).testBit b
        = true ↔
      m.testBit b = true ∨
        ∃ k, k ∈ l ∧ is_modifier k = true ∧ p k = true ∧ (layout K k).testBit b = true := by
  induction l generalizing m with
  | nil => simp
  | cons a l ih =>
    rw [List.foldl_cons, ih]
    by_cases hc : (is_modifier a && p a) = true
    · have hc' := hc
      simp only [Bool.and_eq_true] at hc'
      simp only [hc, if_true, Nat.testBit_or, Bool.or_eq_true, List.mem_cons]
      constructor
      · rintro ((h | h) | ⟨k, hk, h⟩)
        · exact Or.inl h
        · exact Or.inr ⟨a, Or.inl rfl, hc'.1, hc'.2, h⟩
        · exact Or.inr ⟨k, Or.inr hk, h⟩
      · rintro (h | ⟨k, hk | hk, h⟩)
        · exact Or.inl (Or.inl h)
        · subst hk; exact Or.inl (Or.inr h.2.2)
        · exact Or.inr ⟨k, hk, h⟩
    · simp only [hc, List.mem_cons]
      have hc' : ¬ (is_modifier a = true ∧ p a = true) := by
        simpa [Bool.and_eq_true] using hc
      constructor
      · rintro (h | ⟨k, hk, h⟩)
        · exact Or.inl h
        · exact Or.inr ⟨k, Or.inr hk, h⟩
      · rintro (h | ⟨k, hk | hk, h⟩)
        · exact Or.inl h
        · subst hk; exact absurd ⟨h.1, h.2.1⟩ hc'
        · exact Or.inr ⟨k, hk, h⟩

theorem mod_mask_bit (K : KeyCodes) (p : Nat → Bool) (b : Nat) :
    (mod_mask K p).testBit b = true ↔
      ∃ k, k < NKEY ∧ is_modifier k = true ∧ p k = true ∧ (layout K k).testBit b = true := by
  unfold mod_mask
  rw [mask_fold_bit]
  simp [List.mem_range]

theorem mod_inv_eq (K : KeyCodes) (s : State) (h : mod_inv K s) :
    s.mod_keys = mod_mask K s.pressed := by
  apply Nat.eq_of_testBit_eq
  intro b
  have h1 := h.2 b
  have h2 := mod_mask_bit K s.pressed b
  rw [Bool.eq_iff_iff, h1, h2]

@[simp] theorem key_press_modifier_byte (K : KeyCodes) (k : Nat) (s : State) :
    (key_press K k s).keyboard_modifier_keys = (key_press K k s).mod_keys := by
  unfold key_press; split <;> simp

@[simp] theorem key_release_modifier_byte (K : KeyCodes) (k : Nat) (s : State) :
    (key_release K k s).keyboard_modifier_keys = (key_release K k s).mod_keys := by
  unfold key_release; split <;> simp

theorem mod_inv_press (K : KeyCodes) (hK : codes_ok K) (s : State) (k : Nat) (hk : k < NKEY)
    (h : mod_inv K s) : mod_inv K (key_press K k s) := by
  refine ⟨by simp, ?_⟩
  intro b
  rw [key_press_mod_keys, key_press_pressed]
  by_cases hm : is_modifier k = true
  · simp only [hm, if_true]
    rw [show (256 : Nat) = 2 ^ 8 by norm_num, Nat.testBit_mod_two_pow, Nat.testBit_or]
    simp only [Bool.and_eq_true, Bool.or_eq_true, decide_eq_true_eq]
    constructor
    · rintro ⟨_, h1 | h1⟩
      · obtain ⟨k', a1, a2, a3, a4⟩ := (h.2 b).mp h1
        refine ⟨k', a1, a2, ?_, a4⟩
        simp only [upd_apply]; split_ifs <;> simp [a3]
      · exact ⟨k, hk, hm, by simp, h1⟩
    · rintro ⟨k', a1, a2, a3, a4⟩
      refine ⟨layout_bit_lt K hK k' a1 b a4, ?_⟩
      by_cases e : k' = k
      · subst e; exact Or.inr a4
      · rw [upd_other _ _ _ _ e] at a3
        exact Or.inl ((h.2 b).mpr ⟨k', a1, a2, a3, a4⟩)
  · simp only [hm, Bool.false_eq_true, if_false]
    rw [h.2 b]
    constructor
    · rintro ⟨k', a1, a2, a3, a4⟩
      have e : k' ≠ k := by rintro rfl; exact hm a2
      exact ⟨k', a1, a2, by rw [upd_other _ _ _ _ e]; exact a3, a4⟩
    · rintro ⟨k', a1, a2, a3, a4⟩
      have e : k' ≠ k := by rintro rfl; exact hm a2
      rw [upd_other _ _ _ _ e] at a3
      exact ⟨k', a1, a2, a3, a4⟩

theorem mod_inv_release (K : KeyCodes) (hK : codes_ok K) (s : State) (k : Nat) (hk : k < NKEY)
    (h : mod_inv K s) : mod_inv K (key_release K k s) := by
  refine ⟨by simp, ?_⟩
  intro b
  rw [key_release_mod_keys, key_release_pressed]
  by_cases hm : is_modifier k = true
  · simp only [hm, if_true]
    rw [show (256 : Nat) = 2 ^ 8 by norm_num, Nat.testBit_mod_two_pow, Nat.testBit_and,
      Nat.testBit_xor, show (0xFFFF : Nat) = 2 ^ 16 - 1 by norm_num,
      Nat.testBit_two_pow_sub_one]
    simp only [Bool.and_eq_true, decide_eq_true_eq]
    constructor
    · rintro ⟨h8, h1, h2⟩
      obtain ⟨k', a1, a2, a3, a4⟩ := (h.2 b).mp h1
      have h16 : decide (b < 16) = true := by simp; omega
      rw [h16] at h2
      have hc : (layout K k).testBit b = false := by
        cases hb : (layout K k).testBit b
        · rfl
        · rw [hb] at h2; simp at h2
      have e : k' ≠ k := by
        rintro rfl
        rw [hc] at a4; exact Bool.false_ne_true a4
      exact ⟨k', a1, a2, by rw [upd_other _ _ _ _ e]; exact a3, a4⟩
    · rintro ⟨k', a1, a2, a3, a4⟩
      have e : k' ≠ k := by
        rintro rfl
        rw [upd_same] at a3; exact Bool.false_ne_true a3
      rw [upd_other _ _ _ _ e] at a3
      have h8 := layout_bit_lt K hK k' a1 b a4
      refine ⟨h8, (h.2 b).mpr ⟨k', a1, a2, a3, a4⟩, ?_⟩
      have h16 : decide (b < 16) = true := by simp; omega
      have hc : (layout K k).testBit b = false := by
        cases hb : (layout K k).testBit b
        · rfl
        · exact (modifier_disjoint K hK k' k a1 a2 hk hm e b a4 hb).elim
      rw [h16, hc]; rfl
  · simp only [hm, Bool.false_eq_true, if_false]
    rw [h.2 b]
    constructor
    · rintro ⟨k', a1, a2, a3, a4⟩
      have e : k' ≠ k := by rintro rfl; exact hm a2
      exact ⟨k', a1, a2, by rw [upd_other _ _ _ _ e]; exact a3, a4⟩
    · rintro ⟨k', a1, a2, a3, a4⟩
      have e : k' ≠ k := by rintro rfl; exact hm a2
      rw [upd_other _ _ _ _ e] at a3
      exact ⟨k', a1, a2, a3, a4⟩

theorem mod_inv_closed (K : KeyCodes) (hK : codes_ok K) : Closed K (mod_inv K) where
  on_press := fun s k hk _ h => mod_inv_press K hK s k hk h
  on_release := fun s k hk _ h => mod_inv_release K hK s k hk h
  on_clear := fun _ _ _ _ h => h
  on_arm := fun _ _ _ h => h
  on_decay := fun _ _ _ h => h
  on_loc := fun _ _ _ _ h => h

theorem mod_inv_init (K : KeyCodes) (g : Nat → Nat) : mod_inv K (init_state g) := by
  refine ⟨rfl, ?_⟩
  intro b
  simp [init_state]

theorem confirm_all_mod_inv (K : KeyCodes) (hK : codes_ok K) (cs : List Confirmed)
    (hcs : ∀ c ∈ cs, c.key < NKEY) (s : State) (h : mod_inv K s) :
    mod_inv K (confirm_all K s cs) := by
  induction cs generalizing s with
  | nil => exact h
  | cons c cs ih =>
    have hc : c.key < NKEY := hcs c (by simp)
    apply ih (fun x hx => hcs x (by simp [hx])) (confirm K s c)
    cases c with
    | down k => exact mod_inv_press K hK s k hc h
    | up k => exact mod_inv_release K hK s k hc h

theorem queue_inv_press (K : KeyCodes) (s : State) (k : Nat) (hk : k < NKEY)
    (hp : s.pressed k = false) (h : queue_inv s) : queue_inv (key_press K k s) := by
  obtain ⟨h6, he, hn⟩ := h
  have hk255 : k ≠ 255 := by simp [NKEY] at hk; omega
  by_cases hm : is_modifier k = true
  · have hq : (key_press K k s).queue = s.queue := by rw [key_press_queue]; simp [hm]
    refine ⟨by rw [hq]; exact h6, ?_, ?_⟩
    · intro i hi hne
      rw [hq] at hne ⊢
      obtain ⟨a1, a2, a3⟩ := he i hi hne
      refine ⟨a1, a2, ?_⟩
      rw [key_press_pressed, upd_apply]; split_ifs <;> simp [a3]
    · intro i j hi hj hij hne
      rw [hq] at hne ⊢
      exact hn i j hi hj hij hne
  · have hm' : is_modifier k = false := by simpa using hm
    have hq := key_press_queue_apply K k s hm'
    have hold : ∀ i, i < 6 → s.queue i ≠ k := by
      intro i hi heq
      have := (he i hi (by rw [heq]; exact hk255)).2.2
      rw [heq, hp] at this
      exact Bool.false_ne_true this
    refine ⟨by rw [hq]; simpa using h6, ?_, ?_⟩
    · intro i hi hne
      rw [key_press_pressed]
      rw [hq] at hne ⊢
      by_cases h0 : i = 0
      · simp [h0, hk, hm']
      · have h5 : i ≤ 5 := by omega
        simp only [h0, h5, if_true, if_false] at hne ⊢
        obtain ⟨a1, a2, a3⟩ := he (i - 1) (by omega) hne
        refine ⟨a1, a2, ?_⟩
        rw [upd_apply]; split_ifs <;> simp [a3]
    · intro i j hi hj hij hne
      rw [hq] at hne
      rw [hq i, hq j]
      by_cases hi0 : i = 0
      · have hj0 : j ≠ 0 := by omega
        have hj5 : j ≤ 5 := by omega
        simp only [hi0, hj0, hj5, if_true, if_false]
        exact fun e => hold (j - 1) (by omega) e.symm
      · have hi5 : i ≤ 5 := by omega
        simp only [hi0, hi5, if_true, if_false] at hne ⊢
        by_cases hj0 : j = 0
        · simp only [hj0, if_true]
          exact hold (i - 1) (by omega)
        · have hj5 : j ≤ 5 := by omega
          simp only [hj0, hj5, if_true, if_false]
          exact hn (i - 1) (j - 1) (by omega) (by omega) (by omega) hne

theorem queue_inv_release (K : KeyCodes) (s : State) (k : Nat) (_hk : k < NKEY)
    (h : queue_inv s) : queue_inv (key_release K k s) := by
  obtain ⟨h6, he, hn⟩ := h
  by_cases hm : is_modifier k = true
  · have hq : (key_release K k s).queue = s.queue := key_release_queue_mod K k s hm
    refine ⟨by rw [hq]; exact h6, ?_, ?_⟩
    · intro i hi hne
      rw [hq] at hne ⊢
      obtain ⟨a1, a2, a3⟩ := he i hi hne
      refine ⟨a1, a2, ?_⟩
      have e : s.queue i ≠ k := by
        intro e; rw [e, hm] at a2; exact Bool.noConfusion a2
      rw [key_release_pressed, upd_other _ _ _ _ e]; exact a3
    · intro i j hi hj hij hne
      rw [hq] at hne ⊢
      exact hn i j hi hj hij hne
  · have hm' : is_modifier k = false := by simpa using hm
    have hq := key_release_queue_apply K k s hm'
    obtain ⟨_, hp6, hbefore, hat⟩ := find_loop_spec s.queue k 6 0
    generalize find_loop s.queue k 6 0 = p at hq hp6 hbefore hat
    -- an entry of the new queue that is not the sentinel is an old entry at
    -- a position below 6 other than `p`
    have src : ∀ i, i < 6 → (key_release K k s).queue i ≠ 255 →
        ∃ i', i' < 6 ∧ i' ≠ p ∧ (key_release K k s).queue i = s.queue i' ∧
          (i' = if p ≤ i then i + 1 else i) := by
      intro i hi hne
      rw [hq] at hne ⊢
      by_cases hpi : p ≤ i
      · have c : p ≤ i ∧ i < 6 := ⟨hpi, hi⟩
        simp only [c, and_self, if_true, hpi] at hne ⊢
        have : i + 1 ≠ 6 := by intro e; rw [e] at hne; exact hne h6
        exact ⟨i + 1, by omega, by omega, rfl, rfl⟩
      · have c : ¬ (p ≤ i ∧ i < 6) := by omega
        simp only [c, if_false, hpi] at hne ⊢
        exact ⟨i, hi, by omega, rfl, rfl⟩
    refine ⟨by rw [hq]; simpa using h6, ?_, ?_⟩
    · intro i hi hne
      obtain ⟨i', hi', hip, e, _⟩ := src i hi hne
      rw [e] at hne ⊢
      obtain ⟨a1, a2, a3⟩ := he i' hi' hne
      refine ⟨a1, a2, ?_⟩
      have hk' : s.queue i' ≠ k := by
        by_cases hp : p < 6
        · have hkp := hat (by omega)
          rw [← hkp]
          exact hn i' p hi' hp hip hne
        · exact hbefore i' (Nat.zero_le _) (by omega)
      rw [key_release_pressed, upd_other _ _ _ _ hk']; exact a3
    · intro i j hi hj hij hne
      obtain ⟨i', hi', hip, e, ei⟩ := src i hi hne
      rw [e] at hne ⊢
      by_cases hj255 : (key_release K k s).queue j = 255
      · rw [hj255]; exact hne
      · obtain ⟨j', hj', hjp, e', ej⟩ := src j hj hj255
        rw [e']
        refine hn i' j' hi' hj' ?_ hne
        rw [ei, ej]
        split_ifs <;> omega

theorem queue_inv_closed (K : KeyCodes) : Closed K queue_inv where
  on_press := fun s k hk hp h => queue_inv_press K s k hk hp h
  on_release := fun s k hk _ h => queue_inv_release K s k hk h
  on_clear := fun _ _ _ _ h => h
  on_arm := fun _ _ _ h => h
  on_decay := fun _ _ _ h => h
  on_loc := fun _ _ _ _ h => h

theorem queue_inv_init (g : Nat → Nat) : queue_inv (init_state g) := by
  simp [queue_inv, init_state]

theorem and_two_pow_ne_zero (x r : Nat) : x &&& 2 ^ r ≠ 0 ↔ x.testBit r = true := by
  constructor
  · intro h
    by_contra hb
    apply h
    apply Nat.eq_of_testBit_eq
    intro i
    rw [Nat.testBit_and, Nat.testBit_two_pow, Nat.zero_testBit]
    by_cases e : r = i
    · subst e; simp [hb]
    · simp [e]
  · intro hb h0
    have : (x &&& 2 ^ r).testBit r = true := by
      rw [Nat.testBit_and, hb, Nat.testBit_two_pow_self]; rfl
    rw [h0, Nat.zero_testBit] at this
    exact Bool.false_ne_true this

theorem view_key_press_same (K : KeyCodes) (k : Nat) (s : State) :
    view k (key_press K k s) =
      { pressed := true, release := 0, presses := (view k s).presses + 1,
        releases := (view k s).releases } := by
  simp [view, key_press_log, List.count_append, List.count_cons]

theorem view_key_press_other (K : KeyCodes) (k j : Nat) (s : State) (h : k ≠ j) :
    view k (key_press K j s) = view k s := by
  have h' : j ≠ k := fun e => h e.symm
  simp [view, key_press_log, List.count_append, List.count_cons, h, h']

theorem view_key_release_same (K : KeyCodes) (k : Nat) (s : State) :
    view k (key_release K k s) =
      { pressed := false, release := 0, presses := (view k s).presses,
        releases := (view k s).releases + 1 } := by
  simp [view, key_release_log, List.count_append, List.count_cons]

theorem view_key_release_other (K : KeyCodes) (k j : Nat) (s : State) (h : k ≠ j) :
    view k (key_release K j s) = view k s := by
  have h' : j ≠ k := fun e => h e.symm
  simp [view, key_release_log, List.count_append, List.count_cons, h, h']

/-- The edge dispatch acts on the view of the key under the counter as
`edge_view`, and on no other key. -/
theorem view_edge (K : KeyCodes) (c ch r k : Nat) (s : State) :
    view k (edge K c ch (2 ^ r) s) =
      if k = s.key ∧ ch.testBit r = true then edge_view (c.testBit r) (view k s)
      else view k s := by
  unfold edge
  by_cases hch : ch.testBit r = true
  · have h1 : ch &&& 2 ^ r ≠ 0 := (and_two_pow_ne_zero ch r).mpr hch
    simp only [h1, hch, ne_eq, not_false_eq_true, if_true, and_true]
    by_cases hc : c.testBit r = true
    · have h2 : c &&& 2 ^ r ≠ 0 := (and_two_pow_ne_zero c r).mpr hc
      simp only [h2, ne_eq, not_false_eq_true, if_true, hc]
      by_cases hk : k = s.key
      · subst hk
        by_cases hp : s.pressed s.key = false
        · simp only [hp, if_true]
          rw [view_key_press_same]
          simp [edge_view, view, hp]
        · have hp' : s.pressed s.key = true := by simpa using hp
          simp [hp', edge_view, view]
      · simp only [hk, if_false]
        split_ifs
        · exact view_key_press_other K k s.key s hk
        · simp [view, upd_other _ _ _ _ hk]
    · have h2 : ¬ (c &&& 2 ^ r ≠ 0) := fun h => hc ((and_two_pow_ne_zero c r).mp h)
      have hc' : c.testBit r = false := by simpa using hc
      simp only [h2, if_false, hc']
      by_cases hk : k = s.key
      · subst hk; simp [edge_view, view]
      · simp [hk, view, upd_other _ _ _ _ hk]
  · have h1 : ¬ (ch &&& 2 ^ r ≠ 0) := fun h => hch ((and_two_pow_ne_zero ch r).mp h)
    simp [h1, hch]

theorem view_set_key (k : Nat) (s : State) (key : Nat) :
    view k { s with key := key } = view k s := rfl

/-- The row loop acts as `edge_view` on the keys whose bit changed, and on no
other key. -/
theorem view_row_loop (K : KeyCodes) (c ch : Nat) (n r0 : Nat) (s : State) (k : Nat)
    (hr : r0 + n ≤ 8) (hkey : s.key + n < 256) :
    view k (row_loop K c ch n (2 ^ r0 % 256) s) =
      if s.key ≤ k ∧ k < s.key + n ∧ ch.testBit (r0 + (k - s.key)) = true then
        edge_view (c.testBit (r0 + (k - s.key))) (view k s)
      else view k s := by
  induction n generalizing r0 s with
  | zero =>
    have : ¬ (s.key ≤ k ∧ k < s.key + 0 ∧ ch.testBit (r0 + (k - s.key)) = true) := by omega
    simp only [row_loop]
    rw [if_neg this]
  | succ n ih =>
    have hr0 : r0 < 8 := by omega
    have hm : 2 ^ r0 % 256 = 2 ^ r0 := by
      apply Nat.mod_eq_of_lt
      calc 2 ^ r0 < 2 ^ 8 := Nat.pow_lt_pow_right (by norm_num) hr0
        _ = 256 := by norm_num
    have hm' : ((2 ^ r0 % 256) <<< 1) % 256 = 2 ^ (r0 + 1) % 256 := by
      rw [hm, Nat.shiftLeft_eq, pow_one, pow_succ]
    have e : (s.key + 1) % 256 = s.key + 1 := Nat.mod_eq_of_lt (by omega)
    simp only [row_loop]
    rw [hm', edge_key, e, ih (r0 + 1) _ (by omega) (by simp; omega)]
    simp only [view_set_key]
    rw [hm, view_edge]
    by_cases hk : k = s.key
    · subst hk
      have c1 : ¬ (s.key + 1 ≤ s.key ∧ s.key < s.key + 1 + n ∧
          ch.testBit (r0 + 1 + (s.key - (s.key + 1))) = true) := by omega
      rw [if_neg c1]
      simp
    · by_cases hlt : s.key + 1 ≤ k
      · have e2 : r0 + 1 + (k - (s.key + 1)) = r0 + (k - s.key) := by omega
        rw [e2]
        have c3 : ¬ (k = s.key ∧ ch.testBit r0 = true) := fun h => hk h.1
        rw [if_neg c3]
        by_cases hc : k < s.key + 1 + n ∧ ch.testBit (r0 + (k - s.key)) = true
        · rw [if_pos ⟨hlt, hc.1, hc.2⟩, if_pos ⟨by omega, by omega, hc.2⟩]
        · rw [if_neg (fun h => hc ⟨h.2.1, h.2.2⟩), if_neg (fun h => hc ⟨by omega, h.2.2⟩)]
      · have c1 : ¬ (s.key + 1 ≤ k ∧ k < s.key + 1 + n ∧
            ch.testBit (r0 + 1 + (k - (s.key + 1))) = true) := fun h => hlt h.1
        have c2 : ¬ (s.key ≤ k ∧ k < s.key + (n + 1) ∧
            ch.testBit (r0 + (k - s.key)) = true) := by omega
        have c3 : ¬ (k = s.key ∧ ch.testBit r0 = true) := fun h => hk h.1
        rw [if_neg c1, if_neg c2, if_neg c3]

/-- A column scan acts as `edge_view` on the keys of the column whose bit
differs from the stored sample, and on no other key. -/
theorem view_scan_column (K : KeyCodes) (c : Nat) (s : State) (k : Nat)
    (hkey : s.key + NROW < 256) :
    view k (scan_column K c s) =
      if s.key ≤ k ∧ k < s.key + NROW ∧ (c ^^^ s.previous s.col).testBit (k - s.key) = true then
        edge_view (c.testBit (k - s.key)) (view k s)
      else view k s := by
  unfold scan_column; dsimp only
  split_ifs with h1 h2 h3
  · have := view_row_loop K c (c ^^^ s.previous s.col) NROW 0 s k (by simp [NROW]) hkey
    simp only [Nat.zero_add, pow_zero, Nat.one_mod, h2, if_true] at this
    exact this
  · have := view_row_loop K c (c ^^^ s.previous s.col) NROW 0 s k (by simp [NROW]) hkey
    simp only [Nat.zero_add, pow_zero, Nat.one_mod, h2, if_false] at this
    exact this
  · exfalso
    have h0 : c ^^^ s.previous s.col = 0 := by simpa using h1
    rw [h0, Nat.zero_testBit] at h3
    exact Bool.false_ne_true h3.2.2
  · rfl

theorem view_scan_step (K : KeyCodes) (pinb : Nat) (s : State) (k : Nat)
    (hkey : s.key + NROW < 256) :
    view k (scan_step K pinb s) =
      if s.key ≤ k ∧ k < s.key + NROW ∧
          (sample pinb ^^^ s.previous s.col).testBit (k - s.key) = true then
        edge_view ((sample pinb).testBit (k - s.key)) (view k s)
      else view k s := by
  rw [← view_scan_column K (sample pinb) s k hkey]
  unfold scan_step; dsimp only
  split_ifs <;> rfl

theorem view_isr_key_same (K : KeyCodes) (s : State) (k : Nat) :
    view k (isr_key K s k) = tick_view (view k s) := by
  unfold isr_key tick_view; dsimp only
  by_cases h : s.release k = 1
  · have hv : (view k s).release = 1 := h
    rw [if_pos h, if_pos hv]
    have := view_key_release_same K k s
    simp only [view] at this ⊢
    simp at this ⊢
    simp [this]
  · have hv : ¬ (view k s).release = 1 := h
    rw [if_neg h, if_neg hv]
    simp [view]

theorem view_isr_key_other (K : KeyCodes) (s : State) (k j : Nat) (h : k ≠ j) :
    view k (isr_key K s j) = view k s := by
  unfold isr_key; dsimp only
  split_ifs
  · have := view_key_release_other K k j s h
    simp only [view] at this ⊢
    simp at this ⊢
    simp [this, upd_other _ _ _ _ h]
  · simp [view, upd_other _ _ _ _ h]

theorem view_isr_fold (K : KeyCodes) (l : List Nat) (hl : l.Nodup) (s : State) (k : Nat) :
    view k (l.foldl (isr_key K) s) = if k ∈ l then tick_view (view k s) else view k s := by
  induction l generalizing s with
  | nil => simp
  | cons j l ih =>
    rw [List.foldl_cons, ih (List.nodup_cons.mp hl).2]
    by_cases e : k = j
    · subst e
      have hn : k ∉ l := (List.nodup_cons.mp hl).1
      simp [hn, view_isr_key_same]
    · simp [e, view_isr_key_other K s k j e]

/-- A timer tick acts on the view of every key as `tick_view`. -/
theorem view_ISR (K : KeyCodes) (s : State) (k : Nat) (hk : k < NKEY) :
    view k (ISR K s) = tick_view (view k s) := by
  unfold ISR
  rw [view_isr_fold K _ (List.nodup_range NKEY), if_pos (List.mem_range.mpr hk)]

/-! ## C8: a down event for a key that is already pressed -/

/-- C8, as stated, fails: in the example state key 14 is a pressed non-modifier
key that occurs once in the queue, and after `key_press(14)` it occurs
twice. -/
theorem key_press_duplicates :
    14 < NKEY ∧ is_modifier 14 = false ∧ demo_state.pressed 14 = true ∧
    occurrences demo_state.queue 14 = 1 ∧
    (List.range 6).map (key_press hidCodes 14 demo_state).queue =
      [14, 14, 8, 255, 255, 255] ∧
    occurrences (key_press hidCodes 14 demo_state).queue 14 = 2 := by
  decide

/-- C8, amended. For every state in which the key under the scan counter is
already pressed, the edge dispatch of `main` for a down transition of that key
does not call `key_press`: it only clears `release[key]`, sends no report, and
leaves `pressed`, `queue` and `mod_keys` as they are, so that every key occurs
in `queue[0..5]` as often as before (a key that was there exactly once still
is there exactly once). -/
theorem pressed_down_edge_no_duplicate (K : KeyCodes) (s : State) (current change mask : Nat)
    (hp : s.pressed s.key = true) (hch : change &&& mask ≠ 0) (hcur : current &&& mask ≠ 0) :
    edge K current change mask s = { s with release := upd s.release s.key 0 } ∧
    (edge K current change mask s).log = s.log ∧
    (edge K current change mask s).pressed = s.pressed ∧
    (edge K current change mask s).queue = s.queue ∧
    (edge K current change mask s).mod_keys = s.mod_keys ∧
    (∀ k, occurrences (edge K current change mask s).queue k = occurrences s.queue k) := by
  have h : edge K current change mask s = { s with release := upd s.release s.key 0 } := by
    unfold edge
    simp [hch, hcur, hp]
  rw [h]
  exact ⟨rfl, rfl, rfl, rfl, rfl, fun _ => rfl⟩

/-- The amended C8 at the example state with the scan counter on key 14: the
queue `[14, 8, -, -, -, -]` is left as it is. -/
theorem pressed_down_edge_no_duplicate_witness :
    ({ demo_state with key := 14 } : State).pressed 14 = true ∧
    occurrences (edge hidCodes 4 4 4 { demo_state with key := 14 }).queue 14 =
      occurrences ({ demo_state with key := 14 } : State).queue 14 :=
  ⟨by decide,
   (pressed_down_edge_no_duplicate hidCodes { demo_state with key := 14 } 4 4 4
      (by decide) (by decide) (by decide)).2.2.2.2.2 14⟩

/-! ## C9: releasing a key that is already released -/

theorem edge_log_ext (K : KeyCodes) (c ch m : Nat) (s : State) :
    ∃ ext, (edge K c ch m s).log = s.log ++ ext := by
  unfold edge
  split_ifs
  · exact ⟨_, key_press_log K s.key s⟩
  · exact ⟨[], by simp⟩
  · exact ⟨[], by simp⟩
  · exact ⟨[], by simp⟩

theorem row_loop_log_ext (K : KeyCodes) (c ch n m : Nat) (s : State) :
    ∃ ext, (row_loop K c ch n m s).log = s.log ++ ext := by
  induction n generalizing m s with
  | zero => exact ⟨[], by simp [row_loop]⟩
  | succ n ih =>
    obtain ⟨e1, h1⟩ := edge_log_ext K c ch m s
    obtain ⟨e2, h2⟩ := ih ((m <<< 1) % 256)
      { edge K c ch m s with key := ((edge K c ch m s).key + 1) % 256 }
    refine ⟨e1 ++ e2, ?_⟩
    simp only [row_loop]
    rw [h2]
    simp [h1]

/-- The report that `key_press` sends carries the key. -/
theorem key_press_carries (K : KeyCodes) (k : Nat) (s : State) (hk : k < NKEY) :
    report_carries K k ((List.range 6).map (key_press K k s).keyboard_keys)
      (key_press K k s).mod_keys := by
  constructor
  · intro hm
    have h255 : k < 255 := by simp [NKEY] at hk; omega
    simp [range6, key_press, hm, send_keys, upd_apply, h255]
  · intro hm
    exact ⟨s.mod_keys, by rw [key_press_mod_keys, hm]; simp⟩

theorem row_loop_press_log (K : KeyCodes) (c ch : Nat) (n r0 : Nat) (s : State) (kt : Nat)
    (hr : r0 + n ≤ 8) (hkey : s.key + n ≤ NKEY)
    (h1 : s.key ≤ kt) (h2 : kt < s.key + n) (hp : s.pressed kt = false)
    (hch : ch.testBit (r0 + (kt - s.key)) = true) (hc : c.testBit (r0 + (kt - s.key)) = true) :
    ∃ pre post keys mods,
      (row_loop K c ch n (2 ^ r0 % 256) s).log =
        s.log ++ pre ++ [Call.key_press kt, Call.usb_keyboard_send keys mods] ++ post ∧
      report_carries K kt keys mods := by
  induction n generalizing r0 s with
  | zero => omega
  | succ n ih =>
    have hr0 : r0 < 8 := by omega
    have hm : 2 ^ r0 % 256 = 2 ^ r0 := by
      apply Nat.mod_eq_of_lt
      calc 2 ^ r0 < 2 ^ 8 := Nat.pow_lt_pow_right (by norm_num) hr0
        _ = 256 := by norm_num
    have hm' : ((2 ^ r0 % 256) <<< 1) % 256 = 2 ^ (r0 + 1) % 256 := by
      rw [hm, Nat.shiftLeft_eq, pow_one, pow_succ]
    have e : (s.key + 1) % 256 = s.key + 1 :=
      Nat.mod_eq_of_lt (by simp [NKEY] at hkey; omega)
    simp only [row_loop]
    rw [hm', edge_key, e]
    by_cases hk : kt = s.key
    · subst hk
      simp only [Nat.sub_self, Nat.add_zero] at hch hc
      have hedge : edge K c ch (2 ^ r0 % 256) s = key_press K s.key s := by
        rw [hm]; unfold edge
        simp [(and_two_pow_ne_zero ch r0).mpr hch, (and_two_pow_ne_zero c r0).mpr hc, hp]
      obtain ⟨post, hpost⟩ := row_loop_log_ext K c ch n (2 ^ (r0 + 1) % 256)
        { edge K c ch (2 ^ r0 % 256) s with key := s.key + 1 }
      refine ⟨[], post, _, _, ?_, key_press_carries K s.key s (by omega)⟩
      rw [hpost]
      simp only [hedge, key_press_log]
      simp
    · obtain ⟨e1, he1⟩ := edge_log_ext K c ch (2 ^ r0 % 256) s
      have hv := view_edge K c ch r0 kt s
      rw [if_neg (fun h => hk h.1)] at hv
      have hp' : (edge K c ch (2 ^ r0 % 256) s).pressed kt = false := by
        have := congrArg KeyView.pressed hv
        rw [hm]
        simpa [view, hp] using this
      have e2 : r0 + 1 + (kt - (s.key + 1)) = r0 + (kt - s.key) := by omega
      obtain ⟨pre, post, keys, mods, hlog, hcar⟩ := ih (r0 + 1)
        { edge K c ch (2 ^ r0 % 256) s with key := s.key + 1 }
        (by omega) (by simp; omega) (by simp; omega) (by simp; omega) hp'
        (by simp only [e2]; exact hch) (by simp only [e2]; exact hc)
      refine ⟨e1 ++ pre, post, keys, mods, ?_, hcar⟩
      rw [hlog]
      simp [he1]

/-- C7. Between two column iterations (`col` a column, the key counter at
`col*NROW`), for every row `r` whose key `col*NROW + r` is not pressed, a scan
of the column whose sample has bit `r` active while the stored previous sample
has it inactive calls `key_press` for that key within the scan: afterwards
`pressed[key]` is true and `release[key]` is 0, and the scan has appended to
the record of calls `key_press(key)` immediately followed by a
`usb_keyboard_send` whose report carries the key (`layout[key]` in slot 0 for a
non-modifier key, its bits OR-ed into the modifier byte for a modifier). -/
theorem press_immediate (K : KeyCodes) (s : State) (current r : Nat)
    (hs : counters_ok s) (hr : r < NROW)
    (hp : s.pressed (s.col * NROW + r) = false)
    (hcur : current.testBit r = true)
    (hprev : (s.previous s.col).testBit r = false) :
    (scan_column K current s).pressed (s.col * NROW + r) = true ∧
    (scan_column K current s).release (s.col * NROW + r) = 0 ∧
    ∃ pre post keys mods,
      (scan_column K current s).log =
        s.log ++ pre ++
          [Call.key_press (s.col * NROW + r), Call.usb_keyboard_send keys mods] ++ post ∧
      report_carries K (s.col * NROW + r) keys mods := by
  obtain ⟨hcol, hkey⟩ := hs
  have hk256 : s.key + NROW < 256 := by simp [NROW, NCOL] at *; omega
  have hkn : s.key + NROW ≤ NKEY := by simp [NROW, NCOL, NKEY] at *; omega
  have hsub : s.col * NROW + r - s.key = r := by omega
  have hchange : (current ^^^ s.previous s.col).testBit r = true := by
    rw [Nat.testBit_xor, hcur, hprev]; rfl
  have hv := view_scan_column K current s (s.col * NROW + r) hk256
  rw [hsub, if_pos ⟨by omega, by omega, hchange⟩, hcur] at hv
  have hvp : (view (s.col * NROW + r) s).pressed = false := hp
  have hev : edge_view true (view (s.col * NROW + r) s) =
      { pressed := true, release := 0,
        presses := (view (s.col * NROW + r) s).presses + 1,
        releases := (view (s.col * NROW + r) s).releases } := by
    simp [edge_view, hvp]
  rw [hev] at hv
  refine ⟨congrArg KeyView.pressed hv, congrArg KeyView.release hv, ?_⟩
  · have hne : current ^^^ s.previous s.col ≠ 0 := by
      intro h0; rw [h0, Nat.zero_testBit] at hchange; exact Bool.false_ne_true hchange
    obtain ⟨pre, post, keys, mods, hlog, hcar⟩ :=
      row_loop_press_log K current (current ^^^ s.previous s.col) NROW 0 s (s.col * NROW + r)
        (by simp [NROW]) hkn (by omega) (by omega) hp
        (by rw [hsub, Nat.zero_add]; exact hchange) (by rw [hsub, Nat.zero_add]; exact hcur)
    refine ⟨pre, post, keys, mods, ?_, hcar⟩
    rw [← hlog]
    unfold scan_column; dsimp only
    rw [if_pos hne]
    simp

/-- C7 on the initial state: a scan of column 0 with row 2 active presses
key 2 (`KEY_CAPS_LOCK`) at once and the report sent has its code 57 in
slot 0. -/
theorem press_immediate_witness :
    (scan_column hidCodes 4 (init_state (fun _ => 0))).pressed 2 = true ∧
    (scan_column hidCodes 4 (init_state (fun _ => 0))).release 2 = 0 ∧
    (scan_column hidCodes 4 (init_state (fun _ => 0))).log =
      [Call.key_press 2, Call.usb_keyboard_send [57, 0, 0, 0, 0, 0] 0] :=
  ⟨(press_immediate hidCodes (init_state (fun _ => 0)) 4 2 (by decide) (by decide)
      (by decide) (by decide) (by decide)).1,
   (press_immediate hidCodes (init_state (fun _ => 0)) 4 2 (by decide) (by decide)
      (by decide) (by decide) (by decide)).2.1,
   by decide⟩

/-! ## C6: the debounce window -/

theorem view_step_tick (K : KeyCodes) (s : State) (k : Nat) (hk : k < NKEY) :
    view k (step K s Event.tick) = tick_view (view k s) := view_ISR K s k hk

theorem view_step_scan (K : KeyCodes) (s : State) (k pinb : Nat) (hs : counters_ok s) :
    view k (step K s (Event.scan pinb)) =
      if edge_on k s pinb = true then edge_view ((sample pinb).testBit (k - s.key)) (view k s)
      else view k s := by
  have hk256 : s.key + NROW < 256 := by
    obtain ⟨h1, h2⟩ := hs
    simp [NROW, NCOL] at *; omega
  show view k (scan_step K pinb s) = _
  rw [view_scan_step K pinb s k hk256]
  simp [edge_on, and_assoc]

theorem ticks_cons_tick (evs : List Event) : ticks (Event.tick :: evs) = ticks evs + 1 := by
  unfold ticks; rw [List.count_cons_self]

theorem ticks_cons_scan (pinb : Nat) (evs : List Event) :
    ticks (Event.scan pinb :: evs) = ticks evs := by
  unfold ticks; rw [List.count_cons_of_ne (by intro h; cases h)]

theorem view_run_quiet (K : KeyCodes) (k : Nat) (hk : k < NKEY) (evs : List Event) (s : State)
    (hs : counters_ok s) (hq : quiet K k s evs) :
    view k (run K s evs) = tick_view^[ticks evs] (view k s) := by
  induction evs generalizing s with
  | nil => rfl
  | cons e evs ih =>
    cases e with
    | tick =>
      have := ih (step K s Event.tick) (step_counters K s _ hs) hq.2
      simp only [run, List.foldl_cons] at this ⊢
      rw [this, view_step_tick K s k hk, ticks_cons_tick, Function.iterate_succ_apply]
    | scan pinb =>
      obtain ⟨h1, h2⟩ := hq
      have h1 : edge_on k s pinb = false := h1
      have := ih (step K s (Event.scan pinb)) (step_counters K s _ hs) h2
      simp only [run, List.foldl_cons] at this ⊢
      rw [this, view_step_scan K s k pinb hs, h1, ticks_cons_scan]
      simp

theorem tick_view_armed (p : Bool) (a b t : Nat) (ht : t ≤ 7) :
    tick_view^[t] { pressed := p, release := 0x80, presses := a, releases := b } =
      { pressed := p, release := 0x80 >>> t, presses := a, releases := b } := by
  have h : t = 0 ∨ t = 1 ∨ t = 2 ∨ t = 3 ∨ t = 4 ∨ t = 5 ∨ t = 6 ∨ t = 7 := by omega
  rcases h with h | h | h | h | h | h | h | h <;> subst h <;>
    simp [Function.iterate_succ_apply, tick_view]

theorem tick_view_done (a b t : Nat) :
    tick_view^[t] { pressed := false, release := 0, presses := a, releases := b } =
      { pressed := false, release := 0, presses := a, releases := b } := by
  apply Function.iterate_fixed
  simp [tick_view]

theorem tick_view_expired (p : Bool) (a b t : Nat) (ht : 8 ≤ t) :
    tick_view^[t] { pressed := p, release := 0x80, presses := a, releases := b } =
      { pressed := false, release := 0, presses := a, releases := b + 1 } := by
  obtain ⟨m, rfl⟩ : ∃ m, t = m + 8 := ⟨t - 8, by omega⟩
  have h8 : tick_view^[8] { pressed := p, release := 0x80, presses := a, releases := b } =
      { pressed := false, release := 0, presses := a, releases := b + 1 } := by
    rw [show (8 : Nat) = 1 + 7 by rfl, Function.iterate_add_apply,
      tick_view_armed p a b 7 (le_refl 7)]
    simp [tick_view]
  rw [Function.iterate_add_apply, h8]
  exact tick_view_done a (b + 1) m

/-- C6. Between two column iterations, once `release[k]` stands at 0x80 and
no scan of the run finds the bit of `k` changed: after `t <= 7` ticks the
timer is `0x80 >> t` (0x40, 0x20, 0x10, 0x08, 0x04, 0x02, 0x01 after ticks
1..7), `pressed[k]` is unchanged and `key_release(k)` has not been called;
from the 8th tick on `key_release(k)` has been called exactly once,
`pressed[k]` is false and `release[k]` is 0, whatever the number of later
ticks. -/
theorem debounce_window (K : KeyCodes) (s : State) (k : Nat) (evs : List Event)
    (hs : counters_ok s) (hk : k < NKEY) (harm : s.release k = 0x80)
    (hq : quiet K k s evs) :
    (ticks evs ≤ 7 →
      (run K s evs).release k = 0x80 >>> ticks evs ∧
      (run K s evs).pressed k = s.pressed k ∧
      (run K s evs).log.count (Call.key_release k) = s.log.count (Call.key_release k)) ∧
    (8 ≤ ticks evs →
      (run K s evs).pressed k = false ∧
      (run K s evs).release k = 0 ∧
      (run K s evs).log.count (Call.key_release k) =
        s.log.count (Call.key_release k) + 1) := by
  have hv := view_run_quiet K k hk evs s hs hq
  have hv0 : view k s =
      { pressed := s.pressed k
        release := 0x80
        presses := s.log.count (Call.key_press k)
        releases := s.log.count (Call.key_release k) } := by
    simp [view, harm]
  rw [hv0] at hv
  constructor
  · intro ht
    rw [tick_view_armed _ _ _ _ ht] at hv
    exact ⟨congrArg KeyView.release hv, congrArg KeyView.pressed hv,
      congrArg KeyView.releases hv⟩
  · intro ht
    rw [tick_view_expired _ _ _ _ ht] at hv
    exact ⟨congrArg KeyView.pressed hv, congrArg KeyView.release hv,
      congrArg KeyView.releases hv⟩

set_option maxRecDepth 100000 in
/-- C6 on a run from `armed_state`, where key 2 is pressed and `release[2]` is
0x80: eight ticks, with a scan of column 1 in between that finds nothing
changed, end with `key_release(2)` called once, key 2 not pressed and its
timer at 0. -/
theorem debounce_window_witness :
    armed_state.pressed 2 = true ∧ armed_state.release 2 = 0x80 ∧
    (run hidCodes armed_state
      [Event.tick, Event.tick, Event.tick, Event.scan 0xFF, Event.tick, Event.tick,
        Event.tick, Event.tick, Event.tick]).pressed 2 = false ∧
    (run hidCodes armed_state
      [Event.tick, Event.tick, Event.tick, Event.scan 0xFF, Event.tick, Event.tick,
        Event.tick, Event.tick, Event.tick]).release 2 = 0 ∧
    (run hidCodes armed_state
      [Event.tick, Event.tick, Event.tick, Event.scan 0xFF, Event.tick, Event.tick,
        Event.tick, Event.tick, Event.tick]).log.count (Call.key_release 2) =
      armed_state.log.count (Call.key_release 2) + 1 :=
  ⟨by decide, by decide,
    (debounce_window hidCodes armed_state 2
      [Event.tick, Event.tick, Event.tick, Event.scan 0xFF, Event.tick, Event.tick,
        Event.tick, Event.tick, Event.tick]
      (by decide) (by decide) (by decide) (by decide)).2 (by decide)⟩

/-! ## C5: a bounce during the window does not release the key -/

theorem run_singleton (K : KeyCodes) (s : State) (e : Event) : run K s [e] = step K s e := rfl

set_option maxRecDepth 100000 in
/-- Key 2 in `armed_state`: pressed, timer at 0x80, one `key_press` and no
`key_release` so far. -/
theorem view_armed_state :
    view 2 armed_state = { pressed := true, release := 0x80, presses := 1, releases := 0 } := by
  decide

set_option maxRecDepth 100000 in
theorem armed_state_counters : counters_ok armed_state := by decide

set_option maxRecDepth 100000 in
/-- Key 2 in `pending_state`: pressed, timer at 0x01. -/
theorem view_pending_state :
    view 2 pending_state = { pressed := true, release := 0x01, presses := 1, releases := 0 } := by
  have hq : quiet hidCodes 2 armed_state (List.replicate 7 Event.tick) := by decide
  have hv := view_run_quiet hidCodes 2 (by decide) _ armed_state armed_state_counters hq
  rw [view_armed_state, show ticks (List.replicate 7 Event.tick) = 7 by decide,
    tick_view_armed true 1 0 7 (le_refl 7)] at hv
  exact hv

theorem window_ok_cons (K : KeyCodes) (k : Nat) (p : Option Nat) (s : State) (e : Event)
    (evs : List Event) :
    window_ok K k p s (e :: evs) =
      (in_window p e ∧ window_ok K k (pending_after k p s e) (step K s e) evs) := rfl

theorem window_inv_step (K : KeyCodes) (k : Nat) (hk : k < NKEY) (p : Option Nat) (s : State)
    (e : Event) (hs : counters_ok s) (hin : in_window p e) (h : window_inv p (view k s)) :
    window_inv (pending_after k p s e) (view k (step K s e)) ∧
      (view k (step K s e)).releases = (view k s).releases := by
  obtain ⟨hp, hrel⟩ := h
  cases e with
  | tick =>
    rw [view_step_tick K s k hk]
    cases p with
    | none =>
      have hrel : (view k s).release = 0 := hrel
      have htv : tick_view (view k s) = { view k s with release := 0 } := by
        simp [tick_view, hrel]
      rw [htv]
      exact ⟨⟨hp, rfl⟩, rfl⟩
    | some j =>
      obtain ⟨hj, hrel⟩ : j ≤ 7 ∧ (view k s).release = 0x80 >>> j := hrel
      have hj7 : j < 7 := hin j rfl
      have hne : ¬ (view k s).release = 1 := by
        rw [hrel]
        have h : j = 0 ∨ j = 1 ∨ j = 2 ∨ j = 3 ∨ j = 4 ∨ j = 5 ∨ j = 6 := by omega
        rcases h with h | h | h | h | h | h | h <;> subst h <;> decide
      have htv : tick_view (view k s) = { view k s with release := 0x80 >>> (j + 1) } := by
        unfold tick_view
        rw [if_neg hne, hrel, Nat.shiftRight_add]
      rw [htv]
      exact ⟨⟨hp, (by omega : j + 1 ≤ 7), rfl⟩, rfl⟩
  | scan pinb =>
    rw [view_step_scan K s k pinb hs]
    cases hedge : edge_on k s pinb
    · have hpa : pending_after k p s (Event.scan pinb) = p := by
        simp [pending_after, up_edge_on, down_edge_on, hedge]
      rw [hpa, if_neg (by simp)]
      exact ⟨⟨hp, hrel⟩, rfl⟩
    · cases hbit : (sample pinb).testBit (k - s.key)
      · have hpa : pending_after k p s (Event.scan pinb) = some 0 := by
          simp [pending_after, up_edge_on, hedge, hbit]
        have hev : edge_view false (view k s) = { view k s with release := 0x80 } := by
          simp [edge_view]
        rw [hpa, if_pos rfl, hev]
        exact ⟨⟨hp, Nat.zero_le 7, rfl⟩, rfl⟩
      · have hpa : pending_after k p s (Event.scan pinb) = none := by
          simp [pending_after, up_edge_on, down_edge_on, hedge, hbit]
        have hev : edge_view true (view k s) = { view k s with release := 0 } := by
          simp [edge_view, hp]
        rw [hpa, if_pos rfl, hev]
        exact ⟨⟨hp, rfl⟩, rfl⟩

theorem window_inv_run (K : KeyCodes) (k : Nat) (hk : k < NKEY) (evs : List Event)
    (p : Option Nat) (s : State) (hs : counters_ok s) (hw : window_ok K k p s evs)
    (h : window_inv p (view k s)) (n : Nat) :
    (view k (run K s (evs.take n))).pressed = true ∧
      (view k (run K s (evs.take n))).releases = (view k s).releases := by
  induction evs generalizing p s n with
  | nil =>
    rw [List.take_nil]
    exact ⟨h.1, rfl⟩
  | cons e evs ih =>
    cases n with
    | zero => exact ⟨h.1, rfl⟩
    | succ n =>
      obtain ⟨h1, h2⟩ := hw
      obtain ⟨h3, h4⟩ := window_inv_step K k hk p s e hs h1 h
      have := ih (pending_after k p s e) (step K s e) (step_counters K s e hs) h2 h3 n
      rw [h4] at this
      exact this

/-- C11. Between two column iterations, for every sample `current`, the scan of
the column under the counter leaves `pressed[k]` and `release[k]` unchanged
and calls neither `key_press(k)` nor `key_release(k)`, for every key `k` of
another column and for every key of this column whose bit of
`current XOR previous[col]` is 0; afterwards `previous[col] = current` and the
other entries of `previous` are unchanged; and a scan with
`current = previous[col]` changes nothing but the key counter of the loop,
which advances by `NROW`. -/
theorem scan_frame (K : KeyCodes) (s : State) (current : Nat) (hs : counters_ok s) :
    (∀ k, (k / NROW ≠ s.col ∨ (current ^^^ s.previous s.col).testBit (k % NROW) = false) →
      (scan_column K current s).pressed k = s.pressed k ∧
      (scan_column K current s).release k = s.release k ∧
      (scan_column K current s).log.count (Call.key_press k) =
        s.log.count (Call.key_press k) ∧
      (scan_column K current s).log.count (Call.key_release k) =
        s.log.count (Call.key_release k)) ∧
    (scan_column K current s).previous s.col = current ∧
    (∀ c, c ≠ s.col → (scan_column K current s).previous c = s.previous c) ∧
    (current = s.previous s.col → scan_column K current s = { s with key := s.key + NROW }) := by
  obtain ⟨hcol, hkey⟩ := hs
  have hk256 : s.key + NROW < 256 := by simp [NROW, NCOL] at *; omega
  refine ⟨?_, ?_, ?_, ?_⟩
  · intro k hk
    have hv := view_scan_column K current s k hk256
    have hne : ¬ (s.key ≤ k ∧ k < s.key + NROW ∧
        (current ^^^ s.previous s.col).testBit (k - s.key) = true) := by
      rintro ⟨h1, h2, h3⟩
      rcases hk with h | h
      · apply h
        simp only [NROW] at *
        omega
      · have e : k - s.key = k % NROW := by
          simp only [NROW] at *
          omega
        rw [e, h] at h3
        exact Bool.false_ne_true h3
    rw [if_neg hne] at hv
    simp only [view, KeyView.mk.injEq] at hv
    exact hv
  · rw [scan_column_previous, upd_same]
  · intro c hc
    rw [scan_column_previous, upd_other _ _ _ _ hc]
  · intro hcur
    have h0 : current ^^^ s.previous s.col = 0 := by rw [hcur]; exact Nat.xor_self _
    have hp : upd s.previous s.col current = s.previous := by
      funext c
      rw [upd_apply]
      split_ifs with e
      · rw [e, hcur]
      · rfl
    unfold scan_column
    simp [h0, hp, Nat.mod_eq_of_lt hk256]

/-- C11 on the initial state: the scan of column 0 with only row 2 active
leaves key 3 of the same column and key 8 of column 1 alone and stores the
sample. -/
theorem scan_frame_witness :
    counters_ok (init_state (fun _ => 0)) ∧
    (scan_column hidCodes 4 (init_state (fun _ => 0))).pressed 3 = false ∧
    (scan_column hidCodes 4 (init_state (fun _ => 0))).release 8 = 0 ∧
    (scan_column hidCodes 4 (init_state (fun _ => 0))).previous 0 = 4 :=
  ⟨by decide,
   ((scan_frame hidCodes (init_state (fun _ => 0)) 4 (by decide)).1 3 (by decide)).1,
   ((scan_frame hidCodes (init_state (fun _ => 0)) 4 (by decide)).1 8 (by decide)).2.1,
   (scan_frame hidCodes (init_state (fun _ => 0)) 4 (by decide)).2.1⟩

/-! ## C12: a down edge on a key that is already pressed -/

theorem run_cons (K : KeyCodes) (s : State) (e : Event) (evs : List Event) :
    run K s (e :: evs) = run K (step K s e) evs := rfl

theorem run_append (K : KeyCodes) (s : State) (a b : List Event) :
    run K s (a ++ b) = run K (run K s a) b := by
  simp [run, List.foldl_append]

theorem tick_view_idle (p : Bool) (a b t : Nat) :
    tick_view^[t] { pressed := p, release := 0, presses := a, releases := b } =
      { pressed := p, release := 0, presses := a, releases := b } := by
  apply Function.iterate_fixed
  simp [tick_view]

theorem down_edge_on_iff (k : Nat) (s : State) (pinb : Nat) :
    down_edge_on k s pinb = true ↔
      edge_on k s pinb = true ∧ (sample pinb).testBit (k - s.key) = true := by
  simp [down_edge_on]

theorem up_edge_on_iff (k : Nat) (s : State) (pinb : Nat) :
    up_edge_on k s pinb = true ↔
      edge_on k s pinb = true ∧ (sample pinb).testBit (k - s.key) = false := by
  simp [up_edge_on]

/-- The view of a key after a scanned down edge on it. -/
theorem view_down_edge (K : KeyCodes) (s : State) (k pinb : Nat) (hs : counters_ok s)
    (h : down_edge_on k s pinb = true) :
    view k (step K s (Event.scan pinb)) = edge_view true (view k s) := by
  obtain ⟨h1, h2⟩ := (down_edge_on_iff k s pinb).mp h
  rw [view_step_scan K s k pinb hs, if_pos h1, h2]

/-- The view of a key after a scanned up edge on it. -/
theorem view_up_edge (K : KeyCodes) (s : State) (k pinb : Nat) (hs : counters_ok s)
    (h : up_edge_on k s pinb = true) :
    view k (step K s (Event.scan pinb)) = edge_view false (view k s) := by
  obtain ⟨h1, h2⟩ := (up_edge_on_iff k s pinb).mp h
  rw [view_step_scan K s k pinb hs, if_pos h1, h2]

/-- The view of a key along the sequence down edge, up edge, down edge within
the window, whatever else is scanned and however many ticks come outside the
window. -/
theorem view_bounce (K : KeyCodes) (s : State) (k d1 u d2 : Nat) (B C D : List Event)
    (hs : counters_ok s) (hk : k < NKEY) (hp : s.pressed k = false)
    (hd1 : down_edge_on k s d1 = true)
    (hB : quiet K k (step K s (Event.scan d1)) B)
    (hu : up_edge_on k (run K (step K s (Event.scan d1)) B) u = true)
    (hC : quiet K k (step K (run K (step K s (Event.scan d1)) B) (Event.scan u)) C)
    (hC7 : ticks C ≤ 7)
    (hd2 : down_edge_on k
      (run K (step K (run K (step K s (Event.scan d1)) B) (Event.scan u)) C) d2 = true)
    (hD : quiet K k (step K
      (run K (step K (run K (step K s (Event.scan d1)) B) (Event.scan u)) C)
      (Event.scan d2)) D) :
    view k (run K s (Event.scan d1 :: (B ++ Event.scan u :: (C ++ Event.scan d2 :: D)))) =
      { pressed := true, release := 0, presses := s.log.count (Call.key_press k) + 1,
        releases := s.log.count (Call.key_release k) } := by
  have c1 := step_counters K s (Event.scan d1) hs
  have c2 := run_counters K _ B c1
  have c3 := step_counters K _ (Event.scan u) c2
  have c4 := run_counters K _ C c3
  have c5 := step_counters K _ (Event.scan d2) c4
  have v1 : view k (step K s (Event.scan d1)) =
      { pressed := true, release := 0, presses := s.log.count (Call.key_press k) + 1,
        releases := s.log.count (Call.key_release k) } := by
    rw [view_down_edge K s k d1 hs hd1]
    simp [edge_view, view, hp]
  have v2 := view_run_quiet K k hk B _ c1 hB
  rw [v1, tick_view_idle] at v2
  have v3 := view_up_edge K _ k u c2 hu
  rw [v2] at v3
  have v4 := view_run_quiet K k hk C _ c3 hC
  rw [v3] at v4
  simp only [edge_view, Bool.false_eq_true, if_false] at v4
  rw [tick_view_armed _ _ _ _ hC7] at v4
  have v5 := view_down_edge K _ k d2 c4 hd2
  rw [v4] at v5
  simp only [edge_view, if_true] at v5
  have v6 := view_run_quiet K k hk D _ c5 hD
  rw [v5, tick_view_idle] at v6
  rw [run_cons, run_append, run_cons, run_append, run_cons]
  exact v6

/-- C13. For every state, the edge dispatch for an up transition of the key
under the scan counter stores 0x80 in `release[key]` and changes nothing else:
nothing is added to the record of calls (no report), and `pressed`, `queue`,
`mod_keys`, the report globals and `previous` are unchanged. So a column scan
that finds an up edge on `k` leaves `release[k] = 0x80`, `pressed[k]` as it
was, and calls neither `key_press(k)` nor `key_release(k)`. And whenever
`pressed[k]` differs before and after a step, either it became true in a scan
with a down edge on `k` that called `key_press(k)`, or it became false in a
tick that called `key_release(k)`. -/
theorem up_edge_arms (K : KeyCodes) :
    (∀ (s : State) (current change mask : Nat),
      change &&& mask ≠ 0 → current &&& mask = 0 →
      (edge K current change mask s).release = upd s.release s.key 0x80 ∧
      (edge K current change mask s).log = s.log ∧
      (edge K current change mask s).pressed = s.pressed ∧
      (edge K current change mask s).queue = s.queue ∧
      (edge K current change mask s).mod_keys = s.mod_keys ∧
      (edge K current change mask s).keyboard_keys = s.keyboard_keys ∧
      (edge K current change mask s).keyboard_modifier_keys = s.keyboard_modifier_keys ∧
      (edge K current change mask s).previous = s.previous) ∧
    (∀ (s : State) (k pinb : Nat), counters_ok s → up_edge_on k s pinb = true →
      (step K s (Event.scan pinb)).release k = 0x80 ∧
      (step K s (Event.scan pinb)).pressed k = s.pressed k ∧
      (step K s (Event.scan pinb)).log.count (Call.key_press k) =
        s.log.count (Call.key_press k) ∧
      (step K s (Event.scan pinb)).log.count (Call.key_release k) =
        s.log.count (Call.key_release k)) ∧
    (∀ (s : State) (e : Event) (k : Nat), counters_ok s → k < NKEY →
      (step K s e).pressed k ≠ s.pressed k →
      ((step K s e).pressed k = true ∧
        (step K s e).log.count (Call.key_press k) = s.log.count (Call.key_press k) + 1 ∧
        ∃ pinb, e = Event.scan pinb ∧ down_edge_on k s pinb = true) ∨
      ((step K s e).pressed k = false ∧
        (step K s e).log.count (Call.key_release k) =
          s.log.count (Call.key_release k) + 1 ∧
        e = Event.tick)) := by
  refine ⟨?_, ?_, ?_⟩
  · intro s current change mask hch hcur
    have h : edge K current change mask s = { s with release := upd s.release s.key 0x80 } := by
      unfold edge
      simp [hch, hcur]
    rw [h]
    exact ⟨rfl, rfl, rfl, rfl, rfl, rfl, rfl, rfl⟩
  · intro s k pinb hs hu
    have hv := view_up_edge K s k pinb hs hu
    unfold edge_view at hv
    rw [if_neg Bool.false_ne_true] at hv
    simp only [view, KeyView.mk.injEq] at hv
    exact ⟨hv.2.1, hv.1, hv.2.2.1, hv.2.2.2⟩
  · intro s e k hs hk hne
    cases e with
    | tick =>
      right
      have hv := view_step_tick K s k hk
      by_cases hr : (view k s).release = 1
      · unfold tick_view at hv
        rw [if_pos hr] at hv
        simp only [view, KeyView.mk.injEq] at hv
        exact ⟨hv.1, hv.2.2.2, rfl⟩
      · unfold tick_view at hv
        rw [if_neg hr] at hv
        simp only [view, KeyView.mk.injEq] at hv
        exact absurd hv.1 hne
    | scan pinb =>
      left
      have hv := view_step_scan K s k pinb hs
      by_cases he : edge_on k s pinb = true
      · rw [if_pos he] at hv
        cases hb : (sample pinb).testBit (k - s.key)
        · rw [hb] at hv
          unfold edge_view at hv
          rw [if_neg Bool.false_ne_true] at hv
          simp only [view, KeyView.mk.injEq] at hv
          exact absurd hv.1 hne
        · rw [hb] at hv
          cases hp : s.pressed k
          · have hvp : (view k s).pressed = false := hp
            unfold edge_view at hv
            rw [if_pos rfl, hvp, if_neg Bool.false_ne_true] at hv
            simp only [view, KeyView.mk.injEq] at hv
            exact ⟨hv.1, hv.2.2.1, pinb, rfl, (down_edge_on_iff k s pinb).mpr ⟨he, hb⟩⟩
          · have hvp : (view k s).pressed = true := hp
            unfold edge_view at hv
            rw [if_pos rfl, hvp, if_pos rfl] at hv
            simp only [view, KeyView.mk.injEq] at hv
            exact absurd (hv.1.trans hp.symm) hne
      · rw [if_neg he] at hv
        simp only [view, KeyView.mk.injEq] at hv
        exact absurd hv.1 hne

set_option maxRecDepth 100000 in
/-- C13 on a run from the initial state: key 2 is pressed, and when column 0
comes round again with no row active, the scan arms `release[2]` and leaves
key 2 pressed. -/
theorem up_edge_arms_witness :
    (step hidCodes
      (run hidCodes (init_state (fun _ => 0)) (Event.scan 0xFB :: List.replicate 16 (Event.scan 0xFF)))
      (Event.scan 0xFF)).release 2 = 0x80 ∧
    (step hidCodes
      (run hidCodes (init_state (fun _ => 0)) (Event.scan 0xFB :: List.replicate 16 (Event.scan 0xFF)))
      (Event.scan 0xFF)).pressed 2 =
      (run hidCodes (init_state (fun _ => 0))
        (Event.scan 0xFB :: List.replicate 16 (Event.scan 0xFF))).pressed 2 :=
  ⟨((up_edge_arms hidCodes).2.1
      (run hidCodes (init_state (fun _ => 0)) (Event.scan 0xFB :: List.replicate 16 (Event.scan 0xFF)))
      2 0xFF (by decide) (by decide)).1,
   ((up_edge_arms hidCodes).2.1
      (run hidCodes (init_state (fun _ => 0)) (Event.scan 0xFB :: List.replicate 16 (Event.scan 0xFF)))
      2 0xFF (by decide) (by decide)).2.1⟩

/-! ## C14: the key index of a changed bit -/

theorem scan_step_col (K : KeyCodes) (pinb : Nat) (s : State) (h : s.col < NCOL) :
    (scan_step K pinb s).col = (s.col + 1) % NCOL := by
  unfold scan_step; dsimp only
  rw [scan_column_col]
  split_ifs with hc
  · exact (Nat.mod_eq_of_lt hc).symm
  · have e : s.col + 1 = NCOL := by omega
    rw [e, Nat.mod_self]

theorem ISR_col (K : KeyCodes) (s : State) : (ISR K s).col = s.col :=
  (isr_fold_loc K (List.range NKEY) s).1

/-- After any ticks and `n` column scans the column counter has advanced by
`n`, modulo the `NCOL` columns of a cycle, whatever was sampled. -/
theorem run_col (K : KeyCodes) (s : State) (evs : List Event) (hs : counters_ok s) :
    (run K s evs).col = (s.col + scans evs) % NCOL := by
  induction evs generalizing s with
  | nil => exact (Nat.mod_eq_of_lt hs.1).symm
  | cons e evs ih =>
    rw [run_cons, ih _ (step_counters K s e hs)]
    cases e with
    | tick =>
      show ((ISR K s).col + scans evs) % NCOL = _
      rw [ISR_col]
      rfl
    | scan pinb =>
      show ((scan_step K pinb s).col + scans evs) % NCOL = (s.col + (scans evs + 1)) % NCOL
      rw [scan_step_col K pinb s hs.1, Nat.mod_add_mod]
      congr 1
      omega

/-- Two states that differ at most in the key counter are treated alike by the
rows that follow, up to the key counter. -/
theorem dispatch_fold_key (K : KeyCodes) (c ch base x : Nat) (l : List Nat) (a b : State)
    (h : ({ a with key := 0 } : State) = { b with key := 0 }) :
    ({ l.foldl (dispatch_row K c ch base) a with key := x } : State) =
      { l.foldl (dispatch_row K c ch base) b with key := x } := by
  cases l with
  | nil =>
    have h' := congrArg (fun t : State => ({ t with key := x } : State)) h
    exact h'
  | cons r l =>
    have e : dispatch_row K c ch base a r = dispatch_row K c ch base b r := by
      have h' := congrArg (fun t : State => edge K c ch (2 ^ r) { t with key := base + r }) h
      exact h'
    rw [List.foldl_cons, List.foldl_cons, e]

/-- The row loop, row by row: row `r` is dispatched with the key counter at
the start value plus `r`. -/
theorem row_loop_unroll (K : KeyCodes) (c ch base : Nat) (n r0 : Nat) (s : State)
    (hr : r0 + n ≤ 8) (hkey : s.key = base + r0) (hb : base + r0 + n < 256) :
    row_loop K c ch n (2 ^ r0 % 256) s =
      { (List.range' r0 n).foldl (dispatch_row K c ch base) s with key := base + r0 + n } := by
  induction n generalizing r0 s with
  | zero =>
    simp only [row_loop, List.range'_zero, List.foldl_nil, Nat.add_zero]
    rw [← hkey]
  | succ n ih =>
    have hr0 : r0 < 8 := by omega
    have hm : 2 ^ r0 % 256 = 2 ^ r0 := by
      apply Nat.mod_eq_of_lt
      calc 2 ^ r0 < 2 ^ 8 := Nat.pow_lt_pow_right (by norm_num) hr0
        _ = 256 := by norm_num
    have hm' : ((2 ^ r0 % 256) <<< 1) % 256 = 2 ^ (r0 + 1) % 256 := by
      rw [hm, Nat.shiftLeft_eq, pow_one, pow_succ]
    have e : (s.key + 1) % 256 = base + (r0 + 1) := by
      rw [hkey, Nat.mod_eq_of_lt (by omega)]; omega
    have hs : ({ s with key := base + r0 } : State) = s := by rw [← hkey]
    simp only [row_loop]
    rw [hm', edge_key, e, ih (r0 + 1) _ (by omega) rfl (by omega)]
    rw [List.range'_succ, List.foldl_cons]
    have hd : dispatch_row K c ch base s r0 = edge K c ch (2 ^ r0) s := by
      unfold dispatch_row; rw [hs]
    rw [hd, hm, show base + (r0 + 1) + n = base + r0 + (n + 1) by omega]
    exact dispatch_fold_key K c ch base _ _ _ _ rfl

/-- C14. In a scan cycle started with `col = 0` and `key = 0`, after any
ticks and `n` column scans, whatever was sampled, the column counter is
`n mod NCOL` and the key counter is `NROW` times that, so the changed and the
unchanged column path advance the key counter alike. For `col < NCOL` and
`r < NROW` the index `col*NROW + r` is below `NKEY`. Between two column
iterations, a scan whose sample differs from `previous[col]` runs the edge
dispatch for the rows 0 to `NROW - 1` in order, for row `r` with the key
counter at `col*NROW + r`, and leaves the counter at `col*NROW + NROW`; a scan
whose sample equals `previous[col]` only advances the counter by `NROW`. The
dispatch of row `r` acts on key `col*NROW + r` only if bit `r` changed: a
now-active bit calls `key_press` for an unpressed key and clears the timer
of a pressed one (down transition), a now-inactive bit arms the timer (up
transition). -/
theorem stable_key_index (K : KeyCodes) (s0 : State) (evs : List Event)
    (h0 : s0.col = 0 ∧ s0.key = 0) :
    ((run K s0 evs).col = scans evs % NCOL ∧
      (run K s0 evs).key = (scans evs % NCOL) * NROW) ∧
    (∀ col r, col < NCOL → r < NROW → col * NROW + r < NKEY) ∧
    (∀ (s : State) (current : Nat), counters_ok s →
      (current ^^^ s.previous s.col ≠ 0 →
        scan_column K current s =
          { (List.range NROW).foldl
              (dispatch_row K current (current ^^^ s.previous s.col) (s.col * NROW)) s with
            key := s.col * NROW + NROW, previous := upd s.previous s.col current }) ∧
      (current ^^^ s.previous s.col = 0 →
        scan_column K current s =
          { s with key := s.col * NROW + NROW, previous := upd s.previous s.col current })) ∧
    (∀ (s : State) (current change base r : Nat),
      dispatch_row K current change base s r =
        if change.testBit r = true then
          if current.testBit r = true then
            if s.pressed (base + r) = false then
              key_press K (base + r) { s with key := base + r }
            else
              { s with key := base + r, release := upd s.release (base + r) 0 }
          else
            { s with key := base + r, release := upd s.release (base + r) 0x80 }
        else
          { s with key := base + r }) := by
  have hs0 : counters_ok s0 := by
    unfold counters_ok
    rw [h0.1, h0.2]
    exact ⟨by decide, rfl⟩
  refine ⟨?_, ?_, ?_, ?_⟩
  · have hc := run_col K s0 evs hs0
    rw [h0.1, Nat.zero_add] at hc
    have hk := (run_counters K s0 evs hs0).2
    rw [hc] at hk
    exact ⟨hc, hk⟩
  · intro col r hcol hr
    simp only [NCOL, NROW, NKEY] at *
    omega
  · intro s current hs
    obtain ⟨hcol, hkey⟩ := hs
    have hk256 : s.col * NROW + 0 + NROW < 256 := by simp only [NROW, NCOL] at *; omega
    constructor
    · intro hne
      have hu := row_loop_unroll K current (current ^^^ s.previous s.col) (s.col * NROW)
        NROW 0 s (by decide) (by rw [hkey, Nat.add_zero]) hk256
      rw [show (2 : Nat) ^ 0 % 256 = 1 by decide, ← List.range_eq_range', Nat.add_zero] at hu
      have hp := row_loop_previous K current (current ^^^ s.previous s.col) NROW 1 s
      have hc := row_loop_col K current (current ^^^ s.previous s.col) NROW 1 s
      rw [hu] at hp hc
      dsimp only at hp hc
      unfold scan_column; dsimp only
      rw [if_pos hne, hu]
      dsimp only
      rw [hp, hc]
    · intro h0'
      unfold scan_column; dsimp only
      have : ¬ (current ^^^ s.previous s.col ≠ 0) := fun h => h h0'
      rw [if_neg this, hkey, Nat.mod_eq_of_lt (by simp only [NROW, NCOL] at *; omega)]
  · intro s current change base r
    unfold dispatch_row edge
    by_cases hch : change.testBit r = true
    · have h1 : change &&& 2 ^ r ≠ 0 := (and_two_pow_ne_zero change r).mpr hch
      rw [if_pos h1, if_pos hch]
      by_cases hc : current.testBit r = true
      · have h2 : current &&& 2 ^ r ≠ 0 := (and_two_pow_ne_zero current r).mpr hc
        rw [if_pos h2, if_pos hc]
      · have h2 : ¬ (current &&& 2 ^ r ≠ 0) := fun h => hc ((and_two_pow_ne_zero current r).mp h)
        rw [if_neg h2, if_neg hc]
    · have h1 : ¬ (change &&& 2 ^ r ≠ 0) := fun h => hch ((and_two_pow_ne_zero change r).mp h)
      rw [if_neg h1, if_neg hch]

/-- C14 on a run from the initial state: after the scans of columns 0 and 1,
with a tick in between and a key going down in column 0, the loop stands at
column 2 with the key counter at 12. -/
theorem stable_key_index_witness :
    (run hidCodes (init_state (fun _ => 0)) [Event.scan 0xFB, Event.tick, Event.scan 0xFF]).col
      = 2 ∧
    (run hidCodes (init_state (fun _ => 0)) [Event.scan 0xFB, Event.tick, Event.scan 0xFF]).key
      = 12 :=
  (stable_key_index hidCodes (init_state (fun _ => 0))
    [Event.scan 0xFB, Event.tick, Event.scan 0xFF] ⟨rfl, rfl⟩).1

/-! ## C15: releasing a key that is not queued -/

theorem find_loop_traced_fst (q : Nat → Nat) (k n i : Nat) :
    (find_loop_traced q k n i).1 = find_loop q k n i := by
  induction n generalizing i with
  | zero => rfl
  | succ n ih =>
    unfold find_loop_traced find_loop
    split_ifs
    · rfl
    · exact ih (i + 1)

theorem shift_up_traced_fst (n i : Nat) (q : Nat → Nat) :
    (shift_up_traced n i q).1 = shift_up n i q := by
  induction n generalizing i q with
  | zero => rfl
  | succ n ih =>
    unfold shift_up_traced shift_up
    exact ih (i + 1) _

theorem find_loop_traced_reads (q : Nat → Nat) (k n i j : Nat)
    (h : j ∈ (find_loop_traced q k n i).2) : i ≤ j ∧ j < i + n := by
  induction n generalizing i with
  | zero => simp [find_loop_traced] at h
  | succ n ih =>
    unfold find_loop_traced at h
    split_ifs at h
    · simp at h; omega
    · rcases List.mem_cons.mp h with h | h
      · omega
      · have := ih (i + 1) h; omega

theorem shift_up_traced_reads (n i : Nat) (q : Nat → Nat) (j : Nat)
    (h : j ∈ (shift_up_traced n i q).2) : i + 1 ≤ j ∧ j ≤ i + n := by
  induction n generalizing i q with
  | zero => simp [shift_up_traced] at h
  | succ n ih =>
    unfold shift_up_traced at h
    rcases List.mem_cons.mp h with h | h
    · omega
    · have := ih (i + 1) _ h; omega

/-- The search loop on a queue that does not hold the key: it reads
`queue[0]` to `queue[5]` and stops at 6. -/
theorem find_loop_traced_absent (q : Nat → Nat) (k : Nat) (habs : ∀ i, i < 6 → q i ≠ k) :
    find_loop_traced q k 6 0 = (6, [0, 1, 2, 3, 4, 5]) := by
  simp [find_loop_traced, habs 0 (by omega), habs 1 (by omega), habs 2 (by omega),
    habs 3 (by omega), habs 4 (by omega), habs 5 (by omega)]

/-- C15. For every state and every non-modifier key `k` that is in none of
`queue[0..5]`: the search loop of `key_release(k)` reads exactly `queue[0]` to
`queue[5]` and ends with index 6, the shift loop does not run, so every read
of `queue` is at an index below 6; `queue` and `mod_keys` are unchanged, and
`pressed` and `release` change only in that `pressed[k]` and `release[k]` are
cleared. The traced loops compute what the loops of `key_release` compute, and
for every key, queued or not, no read of `queue` goes beyond `queue[6]`. -/
theorem key_release_absent (K : KeyCodes) (s : State) (k : Nat)
    (hm : is_modifier k = false) (habs : ∀ i, i < 6 → s.queue i ≠ k) :
    find_loop_traced s.queue k 6 0 = (6, [0, 1, 2, 3, 4, 5]) ∧
    (shift_up_traced (6 - (find_loop_traced s.queue k 6 0).1)
      (find_loop_traced s.queue k 6 0).1 s.queue).2 = [] ∧
    (∀ j, j ∈ key_release_reads s.queue k → j < 6) ∧
    (key_release K k s).queue = s.queue ∧
    (key_release K k s).mod_keys = s.mod_keys ∧
    (key_release K k s).pressed = upd s.pressed k false ∧
    (key_release K k s).release = upd s.release k 0 ∧
    (∀ (q : Nat → Nat) (k' : Nat),
      (find_loop_traced q k' 6 0).1 = find_loop q k' 6 0 ∧
      (shift_up_traced (6 - find_loop q k' 6 0) (find_loop q k' 6 0) q).1 =
        shift_up (6 - find_loop q k' 6 0) (find_loop q k' 6 0) q ∧
      ∀ j, j ∈ key_release_reads q k' → j ≤ 6) := by
  have hf := find_loop_traced_absent s.queue k habs
  refine ⟨hf, ?_, ?_, ?_, ?_, by simp, by simp, ?_⟩
  · rw [hf]; rfl
  · intro j hj
    unfold key_release_reads at hj
    rw [hf] at hj
    simp [shift_up_traced, range6] at hj
    omega
  · funext j
    rw [key_release_queue_apply K k s hm, find_loop_absent s.queue k habs]
    rw [if_neg (by omega)]
  · rw [key_release_mod_keys, hm]
    simp
  · intro q k'
    refine ⟨find_loop_traced_fst q k' 6 0, shift_up_traced_fst _ _ q, ?_⟩
    intro j hj
    unfold key_release_reads at hj
    have hle := (find_loop_spec q k' 6 0).2.1
    rw [find_loop_traced_fst] at hj
    rcases List.mem_append.mp hj with h | h
    · rcases List.mem_append.mp h with h | h
      · have := find_loop_traced_reads q k' 6 0 j h; omega
      · have := shift_up_traced_reads _ _ q j h; omega
    · have := List.mem_range.mp h; omega

/-- C15 at the example state, whose queue is `[14, 8, -, -, -, -]`: releasing
key 3, which is not queued, leaves the queue as it is. -/
theorem key_release_absent_witness :
    (List.range 6).map demo_state.queue = [14, 8, 255, 255, 255, 255] ∧
    key_release_reads demo_state.queue 3 = [0, 1, 2, 3, 4, 5, 0, 1, 2, 3, 4, 5] ∧
    (key_release hidCodes 3 demo_state).queue = demo_state.queue :=
  ⟨by decide, by decide,
   (key_release_absent hidCodes demo_state 3 (by decide) (by decide)).2.2.2.1⟩

/-! ## C16: the initialisation of `previous` -/

theorem clear_previous_apply (prev : Nat → Nat) (c : Nat) :
    clear_previous prev c = if c < NROW then 0 else prev c := by
  by_cases h : c < NROW
  · have h' : c = 0 ∨ c = 1 ∨ c = 2 ∨ c = 3 ∨ c = 4 ∨ c = 5 := by
      simp only [NROW] at h; omega
    rcases h' with h' | h' | h' | h' | h' | h' <;> subst h' <;>
      simp [clear_previous, NROW, range6, upd_apply]
  · have h0 : c ≠ 0 := by simp only [NROW] at h; omega
    have h1 : c ≠ 1 := by simp only [NROW] at h; omega
    have h2 : c ≠ 2 := by simp only [NROW] at h; omega
    have h3 : c ≠ 3 := by simp only [NROW] at h; omega
    have h4 : c ≠ 4 := by simp only [NROW] at h; omega
    have h5 : c ≠ 5 := by simp only [NROW] at h; omega
    rw [if_neg h]
    simp [clear_previous, NROW, range6, upd_apply, h0, h1, h2, h3, h4, h5]

set_option maxRecDepth 100000 in
/-- Key 36 (column 6, row 0) in `garbage_state`: never pressed, no timer, no
call made for it. -/
theorem view_garbage_state :
    view 36 garbage_state = { pressed := false, release := 0, presses := 0, releases := 0 } := by
  decide

set_option maxRecDepth 100000 in
theorem garbage_state_counters : counters_ok garbage_state := by decide

set_option maxRecDepth 100000 in
theorem garbage_state_col : garbage_state.col = 6 := by decide

set_option maxRecDepth 100000 in
theorem garbage_state_up_edge : up_edge_on 36 garbage_state 0xFF = true := by decide

/-- C16 fails on the code. The initialisation loop of `main` runs to `NROW`,
not to `NCOL`: it clears `previous[0..5]` and leaves `previous[6..16]` as found
in memory. With 0x01 in the memory of `previous[6]` and no key held down, the
first scan of column 6 finds an up edge on key 36, which was never pressed,
and arms `release[36]`; eight ticks later `key_release(36)` is called. -/
theorem previous_not_cleared :
    (∀ g : Nat → Nat, (init_state g).previous = clear_previous (fun c => g c % 256)) ∧
    (∀ (g : Nat → Nat) (c : Nat), c < NROW → (init_state g).previous c = 0) ∧
    (∀ (g : Nat → Nat) (c : Nat), NROW ≤ c → (init_state g).previous c = g c % 256) ∧
    (init_state (fun c => if c = 6 then 1 else 0)).previous 6 = 1 ∧
    garbage_state.col = 6 ∧ garbage_state.pressed 36 = false ∧
    up_edge_on 36 garbage_state 0xFF = true ∧
    (step hidCodes garbage_state (Event.scan 0xFF)).release 36 = 0x80 ∧
    (run hidCodes (step hidCodes garbage_state (Event.scan 0xFF))
      (List.replicate 8 Event.tick)).log.count (Call.key_release 36) = 1 := by
  have hcl : ∀ g : Nat → Nat, (init_state g).previous = clear_previous (fun c => g c % 256) := by
    intro g
    funext c
    rw [clear_previous_apply]
    rfl
  have hv := view_garbage_state
  have hc := garbage_state_counters
  have hu := garbage_state_up_edge
  have hv1 := view_up_edge hidCodes garbage_state 36 0xFF hc hu
  rw [hv] at hv1
  have hv1' : view 36 (step hidCodes garbage_state (Event.scan 0xFF)) =
      { pressed := false, release := 0x80, presses := 0, releases := 0 } := by
    rw [hv1]; rfl
  have hq : quiet hidCodes 36 (step hidCodes garbage_state (Event.scan 0xFF))
      (List.replicate 8 Event.tick) := by decide
  have hv2 := view_run_quiet hidCodes 36 (by decide) _ _
    (step_counters hidCodes garbage_state _ hc) hq
  rw [hv1', show ticks (List.replicate 8 Event.tick) = 8 by decide,
    tick_view_expired false 0 0 8 (le_refl 8)] at hv2
  simp only [view, KeyView.mk.injEq] at hv hv1' hv2
  refine ⟨hcl, ?_, ?_, by decide, garbage_state_col, hv.1, hu, hv1'.2.1, hv2.2.2.2⟩
  · intro g c h
    rw [hcl, clear_previous_apply, if_pos h]
  · intro g c h
    rw [hcl, clear_previous_apply, if_neg (by omega)]

/-! ## C17: the shape of the release timers -/

theorem timer_values_shift (x : Nat) (h : x ∈ timer_values) : x >>> 1 ∈ timer_values := by
  simp only [timer_values, List.mem_cons, List.mem_singleton, List.not_mem_nil, or_false] at h
  rcases h with h | h | h | h | h | h | h | h | h <;> subst h <;> decide

theorem release_inv_upd (s : State) (k v : Nat) (hv : v ∈ timer_values) (h : release_inv s) :
    ∀ j, upd s.release k v j ∈ timer_values := by
  intro j
  rw [upd_apply]
  split_ifs
  · exact hv
  · exact h j

theorem release_inv_closed (K : KeyCodes) : Closed K release_inv where
  on_press := fun s k _ _ h => by
    intro j
    rw [key_press_release]
    exact release_inv_upd s k 0 (by decide) h j
  on_release := fun s k _ _ h => by
    intro j
    rw [key_release_release]
    exact release_inv_upd s k 0 (by decide) h j
  on_clear := fun s k _ _ h => release_inv_upd s k 0 (by decide) h
  on_arm := fun s k _ h => release_inv_upd s k 0x80 (by decide) h
  on_decay := fun s k _ h => release_inv_upd s k _ (timer_values_shift _ (h k)) h
  on_loc := fun _ _ _ _ h => h

theorem release_inv_init (g : Nat → Nat) : release_inv (init_state g) := by
  intro k
  simp [init_state, timer_values]

/-- C17. In every state reached from the initial state by column scans and
timer ticks, every `release[k]` is 0 or one of 0x80, 0x40, 0x20, 0x10, 0x08,
0x04, 0x02, 0x01. Hence, when a step takes the timer of a key `k` from a
non-zero value to 0, either the step is a tick, the timer stood at 0x01 and
the tick called `key_release(k)`, or the step is a scan that found a down edge
on `k`. -/
theorem release_shape (K : KeyCodes) (g : Nat → Nat) (evs : List Event) :
    (∀ k, (run K (init_state g) evs).release k ∈ timer_values) ∧
    (∀ (e : Event) (k : Nat), k < NKEY →
      (run K (init_state g) evs).release k ≠ 0 →
      (step K (run K (init_state g) evs) e).release k = 0 →
      (e = Event.tick ∧ (run K (init_state g) evs).release k = 0x01 ∧
        (step K (run K (init_state g) evs) e).log.count (Call.key_release k) =
          (run K (init_state g) evs).log.count (Call.key_release k) + 1) ∨
      (∃ pinb, e = Event.scan pinb ∧
        down_edge_on k (run K (init_state g) evs) pinb = true)) := by
  have hinv := run_closed K release_inv (release_inv_closed K) (init_state g) evs
    (init_counters g) (release_inv_init g)
  have hs := run_counters K (init_state g) evs (init_counters g)
  generalize run K (init_state g) evs = s at hinv hs
  refine ⟨hinv, ?_⟩
  intro e k hk hne h0
  cases e with
  | tick =>
    left
    have hv := view_step_tick K s k hk
    by_cases hr : (view k s).release = 1
    · unfold tick_view at hv
      rw [if_pos hr] at hv
      simp only [view, KeyView.mk.injEq] at hv
      exact ⟨rfl, hr, hv.2.2.2⟩
    · unfold tick_view at hv
      rw [if_neg hr] at hv
      simp only [view, KeyView.mk.injEq] at hv
      exfalso
      have hshift : s.release k >>> 1 = 0 := by rw [← hv.2.1]; exact h0
      have hmem := hinv k
      have hr' : s.release k ≠ 1 := hr
      simp only [timer_values, List.mem_cons, List.mem_singleton, List.not_mem_nil,
        or_false] at hmem
      rcases hmem with h | h | h | h | h | h | h | h | h
      · exact hne h
      all_goals first
        | exact hr' h
        | (rw [h] at hshift; revert hshift; decide)
  | scan pinb =>
    right
    refine ⟨pinb, rfl, ?_⟩
    have hv := view_step_scan K s k pinb hs
    by_cases he : edge_on k s pinb = true
    · rw [if_pos he] at hv
      cases hb : (sample pinb).testBit (k - s.key)
      · rw [hb] at hv
        unfold edge_view at hv
        rw [if_neg Bool.false_ne_true] at hv
        simp only [view, KeyView.mk.injEq] at hv
        rw [hv.2.1] at h0
        exact absurd h0 (by decide)
      · exact (down_edge_on_iff k s pinb).mpr ⟨he, hb⟩
    · rw [if_neg he] at hv
      simp only [view, KeyView.mk.injEq] at hv
      rw [hv.2.1] at h0
      exact absurd h0 hne

/-! ## C18: the sentinel entries are trailing -/

theorem send_keys_self (K : KeyCodes) (t : State) (i : Nat) (hi : i < 6) :
    (send K t).keyboard_keys i =
      if (send K t).queue i < 255 then layout K ((send K t).queue i) else 0 := by
  rw [send_queue]
  exact send_keys K t i hi

theorem key_press_keyboard_keys (K : KeyCodes) (k : Nat) (s : State) (i : Nat) (hi : i < 6) :
    (key_press K k s).keyboard_keys i =
      if (key_press K k s).queue i < 255 then layout K ((key_press K k s).queue i) else 0 := by
  unfold key_press
  exact send_keys_self K _ i hi

theorem key_release_keyboard_keys (K : KeyCodes) (k : Nat) (s : State) (i : Nat) (hi : i < 6) :
    (key_release K k s).keyboard_keys i =
      if (key_release K k s).queue i < 255 then layout K ((key_release K k s).queue i)
      else 0 := by
  unfold key_release
  exact send_keys_self K _ i hi

/-- The slots follow from the queue facts once a report has been sent. -/
theorem trail_inv_of_queue (K : KeyCodes) (s : State)
    (h6 : s.queue 6 = 255)
    (he : ∀ i, i < 6 → s.queue i = 255 ∨ s.queue i < NKEY)
    (ht : ∀ i j, i < j → j ≤ 6 → s.queue i = 255 → s.queue j = 255)
    (hk : ∀ i, i < 6 → s.keyboard_keys i =
      if s.queue i < 255 then layout K (s.queue i) else 0) : trail_inv K s := by
  refine ⟨h6, he, ht, ?_⟩
  intro i hi
  rw [hk i hi]
  rcases he i hi with h | h
  · simp [h]
  · have h1 : s.queue i < 255 := by simp only [NKEY] at h; omega
    have h2 : s.queue i ≠ 255 := by omega
    simp [h1, h2]

theorem trail_inv_press (K : KeyCodes) (s : State) (k : Nat) (hk : k < NKEY)
    (h : trail_inv K s) : trail_inv K (key_press K k s) := by
  obtain ⟨h6, he, ht, _⟩ := h
  have hk255 : k ≠ 255 := by simp only [NKEY] at hk; omega
  apply trail_inv_of_queue K _ _ _ _ (key_press_keyboard_keys K k s)
  all_goals rw [key_press_queue]
  all_goals by_cases hm : is_modifier k = true
  · simpa [hm] using h6
  · have hm' : is_modifier k = false := by simpa using hm
    simp [hm', upd_apply, shift_down_apply, h6]
  · simpa [hm] using he
  · have hm' : is_modifier k = false := by simpa using hm
    intro i hi
    simp only [hm', Bool.false_eq_true, if_false, upd_apply, shift_down_apply]
    by_cases h0 : i = 0
    · simp [h0, hk]
    · have c : 1 ≤ i ∧ i ≤ 5 := by omega
      simp only [h0, if_false, c, and_self, if_true]
      exact he (i - 1) (by omega)
  · simpa [hm] using ht
  · have hm' : is_modifier k = false := by simpa using hm
    intro i j hij hj hq
    simp only [hm', Bool.false_eq_true, if_false, upd_apply, shift_down_apply] at hq ⊢
    have hi0 : i ≠ 0 := by
      intro h0
      simp [h0] at hq
      exact hk255 hq
    have hj0 : j ≠ 0 := by omega
    have ci : 1 ≤ i ∧ i ≤ 5 := by omega
    simp only [hi0, if_false, ci, and_self, if_true] at hq
    simp only [hj0, if_false]
    by_cases hj5 : j ≤ 5
    · have cj : 1 ≤ j ∧ j ≤ 5 := by omega
      simp only [cj, and_self, if_true]
      exact ht (i - 1) (j - 1) (by omega) (by omega) hq
    · have cj : ¬ (1 ≤ j ∧ j ≤ 5) := by omega
      have e : j = 6 := by omega
      simp only [cj, if_false, e]
      exact h6

theorem trail_inv_release (K : KeyCodes) (s : State) (k : Nat) (_hk : k < NKEY)
    (h : trail_inv K s) : trail_inv K (key_release K k s) := by
  obtain ⟨h6, he, ht, _⟩ := h
  apply trail_inv_of_queue K _ _ _ _ (key_release_keyboard_keys K k s)
  all_goals by_cases hm : is_modifier k = true
  · rw [key_release_queue_mod K k s hm]; exact h6
  · have hm' : is_modifier k = false := by simpa using hm
    rw [key_release_queue_apply K k s hm', if_neg (by omega)]; exact h6
  · rw [key_release_queue_mod K k s hm]; exact he
  · have hm' : is_modifier k = false := by simpa using hm
    intro i hi
    rw [key_release_queue_apply K k s hm']
    split_ifs with c
    · by_cases h5 : i + 1 = 6
      · left; rw [h5]; exact h6
      · exact he (i + 1) (by omega)
    · exact he i hi
  · rw [key_release_queue_mod K k s hm]; exact ht
  · have hm' : is_modifier k = false := by simpa using hm
    intro i j hij hj hq
    rw [key_release_queue_apply K k s hm'] at hq ⊢
    have hall : ∀ a b, a ≤ b → b ≤ 6 → s.queue a = 255 → s.queue b = 255 := by
      intro a b hab hb ha
      by_cases e : a = b
      · rw [← e]; exact ha
      · exact ht a b (by omega) hb ha
    by_cases ci : find_loop s.queue k 6 0 ≤ i ∧ i < 6
    · rw [if_pos ci] at hq
      by_cases cj : find_loop s.queue k 6 0 ≤ j ∧ j < 6
      · rw [if_pos cj]
        exact hall (i + 1) (j + 1) (by omega) (by omega) hq
      · rw [if_neg cj]
        exact hall (i + 1) j (by omega) hj hq
    · rw [if_neg ci] at hq
      by_cases cj : find_loop s.queue k 6 0 ≤ j ∧ j < 6
      · rw [if_pos cj]
        exact hall i (j + 1) (by omega) (by omega) hq
      · rw [if_neg cj]
        exact hall i j (by omega) hj hq

theorem trail_inv_init (K : KeyCodes) (g : Nat → Nat) : trail_inv K (init_state g) := by
  simp [trail_inv, init_state]

theorem confirm_all_trail_inv (K : KeyCodes) (cs : List Confirmed)
    (hcs : ∀ c ∈ cs, c.key < NKEY) (s : State) (h : trail_inv K s) :
    trail_inv K (confirm_all K s cs) := by
  induction cs generalizing s with
  | nil => exact h
  | cons c cs ih =>
    have hc : c.key < NKEY := hcs c (by simp)
    apply ih (fun x hx => hcs x (by simp [hx])) (confirm K s c)
    cases c with
    | down k => exact trail_inv_press K s k hc h
    | up k => exact trail_inv_release K s k hc h

end Phantom
